import Mathlib

/-!
Verification of the grid pathfinding toolkit of `src/utils/helpers.ts`
(Advent-of-Code 2024 repository).

Modelling conventions, stated once:
* JavaScript strings are modelled as `List Char`.
* JavaScript numbers appearing in this toolkit are integer-valued except for
  the `Infinity` sentinel in Dijkstra distance maps; they are modelled as
  `Int`, and distances as `WithTop Int` (`⊤` = `Infinity`).
* A JS `Map` is modelled as an ordered association list (`amapSet` updates an
  existing key in place and appends a fresh key, matching `Map.prototype.set`
  insertion-order semantics); a JS `Set` is an ordered duplicate-free list.
* The source keys its maps and sets by the string encoding
  `convertTupleToString(row, col)`; the encoding is injective on integer
  pairs (theorem `convertTupleToString_injective` below), so maps keyed
  directly by the coordinate pair are observationally identical.
* Unbounded `while` loops are modelled by structural recursion on a fuel
  parameter chosen large enough; fuel sufficiency is proved where a claim
  depends on it.
-/

namespace AoC2024

/-! ## Strings and the tuple encoding (`convertTupleToString`, `convertStringToTuple`) -/

/-- JS `str.split(",")` for a single-character separator: one more segment
than there are separators; splitting the empty string yields `[""]`. -/
def splitOnComma : List Char → List (List Char)
  | [] => [[]]
  | c :: cs =>
    if c = ',' then [] :: splitOnComma cs
    else
      match splitOnComma cs with
      | [] => [[c]]
      | s :: rest => (c :: s) :: rest

/-- JS `array.join(",")`. -/
def joinComma : List (List Char) → List Char
  | [] => []
  | [s] => s
  | s :: rest => s ++ ',' :: joinComma rest

/-- The character with code `48 + d`; for `d < 10` this is the decimal digit
character JS uses when stringifying numbers. -/
def digitChar (d : Nat) : Char := Char.ofNat (48 + d)

/-- Numeric value of a digit character. -/
def charVal (c : Char) : Nat := c.toNat - 48

/-- JS `String(n)` for a natural number: decimal digits, `"0"` for zero. -/
def natToChars (n : Nat) : List Char :=
  if n = 0 then [Char.ofNat 48] else ((Nat.digits 10 n).map digitChar).reverse

/-- JS `String(i)` for an integer: a leading `-` for negative values. -/
def intToChars (i : Int) : List Char :=
  if i < 0 then Char.ofNat 45 :: natToChars i.natAbs else natToChars i.natAbs

/-- Value of a list of decimal digit characters. -/
def digitsVal (cs : List Char) : Nat := Nat.ofDigits 10 ((cs.map charVal).reverse)

/-- The JS `Number` conversion, on the decimal integer strings produced by
`intToChars` (an optional leading `-` followed by digits); `Number("")` is 0. -/
def jsNumber (cs : List Char) : Int :=
  match cs with
  | [] => 0
  | c :: rest =>
    if c = Char.ofNat 45 then - (digitsVal rest : Int) else (digitsVal (c :: rest) : Int)

/-- `convertTupleToString` of `src/utils/helpers.ts` (line 36), specialised to
the integer tuples the claims quantify over: `values.join(",")` where each
value is stringified by JS semantics. -/
def convertTupleToString (values : List Int) : List Char :=
  joinComma (values.map intToChars)

/-- `convertStringToTuple` of `src/utils/helpers.ts` (line 49): split on the
comma, throw a `TypeError` on an arity mismatch with the converter array,
otherwise apply each converter positionally. -/
def convertStringToTuple {β : Type} (str : List Char)
    (converters : List (List Char → β)) : Except String (List β) :=
  let values := splitOnComma str
  if values.length = converters.length then
    .ok (List.zipWith (fun v f => f v) values converters)
  else
    .error "TypeError: Mismatch between number of values and converters"

/-! ## Grids, coordinates, JS maps and sets -/

/-- A coordinate `(row, col)`; in-bounds coordinates carry integer values. -/
abbrev Coord := Int × Int

/-- A 2D grid, `T[][]` in the source. -/
abbrev Grid (α : Type) := List (List α)

def rowCount {α : Type} (g : Grid α) : Nat := g.length

/-- `grid[0].length`; on the empty grid the source would crash reading
`grid[0]`, and here no column is in bounds, so both reject every coordinate. -/
def colCount {α : Type} (g : Grid α) : Nat := (g.headD []).length

/-- `isInBounds` of `src/utils/helpers.ts` (line 21). -/
def isInBounds {α : Type} (g : Grid α) (r c : Int) : Bool :=
  decide (0 ≤ r) && decide (r < (rowCount g : Int)) &&
    decide (0 ≤ c) && decide (c < (colCount g : Int))

/-- `Map.prototype.get` on an insertion-ordered association list. -/
def amapGet {β : Type} : List (Coord × β) → Coord → Option β
  | [], _ => none
  | e :: m, k => if e.1 = k then some e.2 else amapGet m k

/-- `Map.prototype.set`: update an existing key in place, append a new key. -/
def amapSet {β : Type} : List (Coord × β) → Coord → β → List (Coord × β)
  | [], k, v => [(k, v)]
  | e :: m, k, v => if e.1 = k then (k, v) :: m else e :: amapSet m k v

/-- `Map.prototype.delete`. -/
def amapDelete {β : Type} (m : List (Coord × β)) (k : Coord) : List (Coord × β) :=
  m.filter (fun e => decide (e.1 ≠ k))

/-- `Set.prototype.add` on an insertion-ordered duplicate-free list. -/
def setAdd (s : List Coord) (x : Coord) : List Coord :=
  if x ∈ s then s else s ++ [x]

/-- `Set.prototype.delete`. -/
def setDelete (s : List Coord) (x : Coord) : List Coord :=
  s.filter (fun y => decide (y ≠ x))

/-- Distance and cost values: JS numbers as used by `dijkstra` — integers
plus the `Infinity` sentinel (`⊤`). -/
abbrev Cost := WithTop Int

/-- `GRID_DIRECTIONS.CARDINAL` of `src/utils/helpers.ts` (line 78). -/
def CARDINAL : List Coord := [(0, 1), (1, 0), (0, -1), (-1, 0)]

/-- `HEURISTICS.MANHATTAN` of `src/utils/helpers.ts` (line 131). -/
def MANHATTAN (current target : Coord) : Int :=
  |current.1 - target.1| + |current.2 - target.2|

/-! ## Dijkstra (`src/utils/helpers.ts` lines 172-271) -/

/-- The grid cells in the row-major order of the two initialization loops. -/
def dijkstraCells {α : Type} (g : Grid α) : List Coord :=
  (List.range (rowCount g)).flatMap (fun r =>
    (List.range (colCount g)).map (fun c => (Int.ofNat r, Int.ofNat c)))

/-- The linear scan for the unvisited node of minimum distance (lines
204-215): strict `<`, so the first minimum in iteration order wins and a
node at distance `Infinity` is never selected (`current` stays `""`,
modelled as `none`). -/
def scanMin (dist : List (Coord × Cost)) :
    List Coord → Cost × Option Coord → Cost × Option Coord
  | [], acc => acc
  | pos :: rest, acc =>
    let d := (amapGet dist pos).getD ⊤
    scanMin dist rest (if d < acc.1 then (d, some pos) else acc)

/-- The neighbor relaxation loop (lines 232-253); `unvisited` here is the set
after the current node was deleted, as in the source. -/
def dijkstraRelax {α : Type} (g : Grid α)
    (getCost : Coord → Coord → Grid α → Cost) :
    List Coord → List Coord → Coord →
      List (Coord × Cost) × List (Coord × Coord) →
      List (Coord × Cost) × List (Coord × Coord)
  | [], _, _, dp => dp
  | d :: ds, unvisited, cur, dp =>
    let nr := cur.1 + d.1
    let nc := cur.2 + d.2
    let dp2 :=
      if isInBounds g nr nc then
        if (nr, nc) ∈ unvisited then
          let cost := getCost cur (nr, nc) g
          let nd := (amapGet dp.1 cur).getD ⊤ + cost
          if nd < (amapGet dp.1 (nr, nc)).getD ⊤ then
            (amapSet dp.1 (nr, nc) nd, amapSet dp.2 (nr, nc) cur)
          else dp
        else dp
      else dp
    dijkstraRelax g getCost ds unvisited cur dp2

/-- The main `while (unvisited.size > 0)` loop (lines 204-254), by recursion
on fuel; one unit of fuel per iteration. Exhausted fuel returns the current
maps, which coincides with the break behaviour; `dijkstra` below supplies
fuel exceeding the iteration count, which is bounded because every
non-breaking iteration deletes one coordinate from `unvisited`. -/
def dijkstraLoop {α : Type} (g : Grid α)
    (getCost : Coord → Coord → Grid α → Cost) (dirs : List Coord) (e : Coord) :
    Nat → List Coord → List (Coord × Cost) → List (Coord × Coord) →
      List (Coord × Cost) × List (Coord × Coord)
  | 0, _, dist, prev => (dist, prev)
  | fuel + 1, unvisited, dist, prev =>
    if unvisited.isEmpty then (dist, prev)
    else
      match scanMin dist unvisited (⊤, none) with
      | (_, none) => (dist, prev)
      | (minD, some cur) =>
        if minD = ⊤ then (dist, prev)
        else if cur = e then (dist, prev)
        else
          let unvisited2 := setDelete unvisited cur
          let dp := dijkstraRelax g getCost dirs unvisited2 cur (dist, prev)
          dijkstraLoop g getCost dirs e fuel unvisited2 dp.1 dp.2

/-- The path-reconstruction `while (current !== startKey)` loop (lines
260-267), by recursion on fuel: push the current coordinate, follow the
predecessor link, break when the link is missing. -/
def reconstructAux (prev : List (Coord × Coord)) (s : Coord) :
    Nat → Coord → List Coord → List Coord
  | 0, _, acc => acc
  | fuel + 1, cur, acc =>
    if cur = s then acc
    else
      match amapGet prev cur with
      | none => cur :: acc
      | some p => reconstructAux prev s fuel p (cur :: acc)

/-- Path reconstruction: walk back from `e`, then unconditionally prefix the
start (line 268). -/
def reconstructPath (prev : List (Coord × Coord)) (s e : Coord) (fuel : Nat) :
    List Coord :=
  s :: reconstructAux prev s fuel e []

/-- The value returned by `dijkstra`; the internal predecessor map is exposed
alongside the source's `{distances, path}` for verification. -/
structure DijkstraResult where
  distances : List (Coord × Cost)
  previous : List (Coord × Coord)
  path : List Coord

/-- `dijkstra` of `src/utils/helpers.ts` (line 172): throw on out-of-bounds
start or end; initialize every cell to `Infinity` and the start to `0`; run
the main loop; reconstruct the path. -/
def dijkstra {α : Type} (g : Grid α) (s e : Coord) (dirs : List Coord)
    (getCost : Coord → Coord → Grid α → Cost) : Except String DijkstraResult :=
  if ! isInBounds g s.1 s.2 || ! isInBounds g e.1 e.2 then
    .error "Start or end position is out of bounds"
  else
    let cells := dijkstraCells g
    let init := cells.foldl
      (fun dp p => (amapSet dp.1 p ⊤, setAdd dp.2 p))
      (([] : List (Coord × Cost)), ([] : List Coord))
    let dist0 := amapSet init.1 s 0
    let res := dijkstraLoop g getCost dirs e (cells.length + 1) init.2 dist0 []
    .ok ⟨res.1, res.2, reconstructPath res.2 s e (cells.length + 1)⟩

/-! ## BFS (`src/utils/helpers.ts` lines 276-337) -/

/-- The optional `isValidMove` check (line 326): a missing predicate allows
every move. -/
def validOk {α : Type} (valid : Option (Coord → Coord → Grid α → Bool))
    (c n : Coord) (g : Grid α) : Bool :=
  match valid with
  | none => true
  | some f => f c n g

/-- The neighbor loop of one BFS iteration (lines 311-333): skip
out-of-bounds, visited, and predicate-rejected neighbors; mark the rest
visited, record their predecessor, and enqueue them. The state is
`(queue, visited, previous)`. -/
def bfsExpand {α : Type} (g : Grid α)
    (valid : Option (Coord → Coord → Grid α → Bool)) :
    List Coord → Coord → List Coord × List Coord × List (Coord × Coord) →
      List Coord × List Coord × List (Coord × Coord)
  | [], _, st => st
  | d :: ds, cur, st =>
    let nr := cur.1 + d.1
    let nc := cur.2 + d.2
    let st2 :=
      if isInBounds g nr nc then
        if (nr, nc) ∈ st.2.1 then st
        else if validOk valid cur (nr, nc) g then
          (st.1 ++ [(nr, nc)], st.2.1 ++ [(nr, nc)], amapSet st.2.2 (nr, nc) cur)
        else st
      else st
    bfsExpand g valid ds cur st2

/-- The main `while (queue.length > 0)` loop (lines 293-334), by recursion on
fuel; `none` means the fuel ran out, which `bfs_fuel_sufficient` below proves
impossible for the fuel `bfs` supplies. An exhausted queue returns `[]`; a
dequeued end reconstructs the path. -/
def bfsLoop {α : Type} (g : Grid α)
    (valid : Option (Coord → Coord → Grid α → Bool)) (dirs : List Coord)
    (s e : Coord) :
    Nat → List Coord → List Coord → List (Coord × Coord) →
      Option (List Coord)
  | 0, _, _, _ => none
  | _ + 1, [], _, _ => some []
  | fuel + 1, cur :: q, vis, prev =>
    if cur = e then
      some (reconstructPath prev s e (rowCount g * colCount g + 1))
    else
      let st := bfsExpand g valid dirs cur (q, vis, prev)
      bfsLoop g valid dirs s e fuel st.1 st.2.1 st.2.2

/-- `bfs` of `src/utils/helpers.ts` (line 276): throw on out-of-bounds start
or end; otherwise run the queue loop seeded with the start, which is marked
visited immediately. -/
def bfs {α : Type} (g : Grid α) (s e : Coord) (dirs : List Coord)
    (valid : Option (Coord → Coord → Grid α → Bool)) :
    Except String (List Coord) :=
  if ! isInBounds g s.1 s.2 || ! isInBounds g e.1 e.2 then
    .error "Start or end position is out of bounds"
  else
    .ok ((bfsLoop g valid dirs s e (rowCount g * colCount g + 1)
      [s] [s] []).getD [])

/-! ## A* (`src/utils/helpers.ts` lines 352-441), with integer-valued cost
and heuristic functions (the claims exercise only unit costs and the
Manhattan heuristic, both integer-valued) -/

structure AStarNode where
  position : Coord
  g : Int
  h : Int
  f : Int

/-- The scan for the open node of lowest `f` (lines 378-386): first minimum
in insertion order wins. -/
def astarScan (openSet : List (Coord × AStarNode)) :
    Option (Coord × AStarNode) :=
  openSet.foldl
    (fun best kn =>
      match best with
      | none => some kn
      | some bkn => if kn.2.f < bkn.2.f then some kn else best)
    none

/-- The neighbor loop of one A* iteration (lines 408-437). The state is
`(openSet, closedSet, previous)`. -/
def astarExpand {α : Type} (g : Grid α)
    (getCost : Coord → Coord → Grid α → Int)
    (heuristic : Coord → Coord → Int) (dirs : List Coord) (e : Coord)
    (curNode : AStarNode)
    (st : List (Coord × AStarNode) × List Coord × List (Coord × Coord)) :
    List (Coord × AStarNode) × List Coord × List (Coord × Coord) :=
  dirs.foldl
    (fun st d =>
      let nr := curNode.position.1 + d.1
      let nc := curNode.position.2 + d.2
      if isInBounds g nr nc then
        if (nr, nc) ∈ st.2.1 then st
        else
          let gScore := curNode.g + getCost curNode.position (nr, nc) g
          let hScore := heuristic (nr, nc) e
          let fScore := gScore + hScore
          match amapGet st.1 (nr, nc) with
          | some ex =>
            if gScore < ex.g then
              (amapSet st.1 (nr, nc) ⟨(nr, nc), gScore, hScore, fScore⟩,
                st.2.1, amapSet st.2.2 (nr, nc) curNode.position)
            else st
          | none =>
            (amapSet st.1 (nr, nc) ⟨(nr, nc), gScore, hScore, fScore⟩,
              st.2.1, amapSet st.2.2 (nr, nc) curNode.position)
      else st)
    st

/-- The main `while (openSet.size > 0)` loop (lines 376-438), by recursion on
fuel; exhausted fuel returns `[]` like an exhausted open set, and the fuel
`astar` supplies exceeds the iteration count, which is bounded because every
iteration moves one key from the open set to the closed set. -/
def astarLoop {α : Type} (g : Grid α)
    (getCost : Coord → Coord → Grid α → Int)
    (heuristic : Coord → Coord → Int) (dirs : List Coord) (s e : Coord) :
    Nat → List (Coord × AStarNode) → List Coord → List (Coord × Coord) →
      List Coord
  | 0, _, _, _ => []
  | fuel + 1, openSet, closed, prev =>
    if openSet.isEmpty then []
    else
      match astarScan openSet with
      | none => []
      | some kn =>
        if kn.2.position = e then
          reconstructPath prev s e (rowCount g * colCount g + 1)
        else
          let openSet2 := amapDelete openSet kn.1
          let closed2 := closed ++ [kn.1]
          let st := astarExpand g getCost heuristic dirs e kn.2
            (openSet2, closed2, prev)
          astarLoop g getCost heuristic dirs s e fuel st.1 st.2.1 st.2.2

/-- `astar` of `src/utils/helpers.ts` (line 352): throw on out-of-bounds
start or end; otherwise run the loop from an open set holding the start node
with `g = 0` and `h = f = heuristic(start, end)`. -/
def astar {α : Type} (g : Grid α) (s e : Coord) (dirs : List Coord)
    (getCost : Coord → Coord → Grid α → Int)
    (heuristic : Coord → Coord → Int) : Except String (List Coord) :=
  if ! isInBounds g s.1 s.2 || ! isInBounds g e.1 e.2 then
    .error "Start or end position is out of bounds"
  else
    let h0 := heuristic s e
    .ok (astarLoop g getCost heuristic dirs s e
      (rowCount g * colCount g + 1) [(s, ⟨s, 0, h0, h0⟩)] [] [])

/-! ## The implicit step graph of a grid search -/

/-- One legal move: a supplied direction vector leading to an in-bounds
coordinate that the optional predicate accepts. -/
def stepRel {α : Type} (g : Grid α) (dirs : List Coord)
    (valid : Option (Coord → Coord → Grid α → Bool)) (u v : Coord) : Prop :=
  (∃ d ∈ dirs, v = (u.1 + d.1, u.2 + d.2)) ∧ isInBounds g v.1 v.2 = true ∧
    validOk valid u v g = true

/-- `ReachN g dirs valid s n v`: a walk of exactly `n` legal moves from `s`
ends at `v`. -/
def ReachN {α : Type} (g : Grid α) (dirs : List Coord)
    (valid : Option (Coord → Coord → Grid α → Bool)) (s : Coord) :
    Nat → Coord → Prop
  | 0, v => v = s
  | n + 1, v => ∃ u, ReachN g dirs valid s n u ∧ stepRel g dirs valid u v

/-- `v` is reachable from `s` by legal moves. -/
def Reachable {α : Type} (g : Grid α) (dirs : List Coord)
    (valid : Option (Coord → Coord → Grid α → Bool)) (s v : Coord) : Prop :=
  ∃ n, ReachN g dirs valid s n v

/-- The invariant of the BFS loop state `(q, vis, prev)` relative to a ghost
level assignment `lvl`: coordinates are visited exactly when enqueued,
`lvl` records the BFS depth of each visited coordinate and the invariant
forces it to be the exact shortest-walk length; the queue splits into a
block at depth `a` followed by a block at depth `a + 1`, and everything
within distance `a` is already visited. -/
structure BfsInv {α : Type} (g : Grid α) (dirs : List Coord)
    (valid : Option (Coord → Coord → Grid α → Bool)) (s e : Coord)
    (lvl : Coord → Nat) (q vis : List Coord)
    (prev : List (Coord × Coord)) : Prop where
  visNodup : vis.Nodup
  visBounds : ∀ v ∈ vis, isInBounds g v.1 v.2 = true
  qSub : ∀ x ∈ q, x ∈ vis
  startVis : s ∈ vis
  lvlStart : lvl s = 0
  visReach : ∀ v ∈ vis, ReachN g dirs valid s (lvl v) v
  visOpt : ∀ v ∈ vis, ∀ m, ReachN g dirs valid s m v → lvl v ≤ m
  prevLink : ∀ v ∈ vis, v ≠ s → ∃ p, amapGet prev v = some p ∧ p ∈ vis ∧
    stepRel g dirs valid p v ∧ lvl v = lvl p + 1
  endQ : e ∈ vis → e ∈ q
  processed : ∀ v ∈ vis, v ∉ q → ∀ w, stepRel g dirs valid v w → w ∈ vis
  blocks : ∃ a q1 q2, q = q1 ++ q2 ∧ (∀ x ∈ q1, lvl x = a) ∧
    (∀ x ∈ q2, lvl x = a + 1) ∧
    (∀ v m, m ≤ a → ReachN g dirs valid s m v → v ∈ vis)

/-- The invariant of the Dijkstra loop state `(unvisited, dist)` under the
uniform unit cost function: settled coordinates (in bounds but no longer
unvisited) carry exact shortest distances, every finite distance is the
length of an actual walk, and frontier distances are upper-bounded through
each settled neighbor. -/
structure DijInv {α : Type} (g : Grid α) (dirs : List Coord) (s e : Coord)
    (unvisited : List Coord) (dist : List (Coord × Cost)) : Prop where
  uvNodup : unvisited.Nodup
  uvBounds : ∀ v ∈ unvisited, isInBounds g v.1 v.2 = true
  sInB : isInBounds g s.1 s.2 = true
  endUv : e ∈ unvisited
  startD : s ∈ unvisited → (amapGet dist s).getD ⊤ = 0
  settledExact : ∀ v : Coord, isInBounds g v.1 v.2 = true → v ∉ unvisited →
    ∃ k : Nat, (amapGet dist v).getD ⊤ = ((k : Int) : Cost) ∧
      ReachN g dirs none s k v ∧ ∀ m, ReachN g dirs none s m v → k ≤ m
  lowerBound : ∀ v : Coord, (amapGet dist v).getD ⊤ ≠ ⊤ →
    ∃ k : Nat, (amapGet dist v).getD ⊤ = ((k : Int) : Cost) ∧
      ReachN g dirs none s k v
  frontierUB : ∀ v ∈ unvisited, ∀ u : Coord, isInBounds g u.1 u.2 = true →
    u ∉ unvisited → stepRel g dirs none u v →
    (amapGet dist v).getD ⊤ ≤ (amapGet dist u).getD ⊤ + 1

/-! ## Shared concrete material for the claims -/

/-- The cost function returning `1` for every edge. -/
def unitCost {α : Type} : Coord → Coord → Grid α → Cost := fun _ _ _ => 1

/-- The integer-valued unit cost function, for `astar`. -/
def unitCostI {α : Type} : Coord → Coord → Grid α → Int := fun _ _ _ => 1

/-- Summed edge cost of a path under a cost function. -/
def pathCostI {α : Type} (getCost : Coord → Coord → Grid α → Int) (g : Grid α) :
    List Coord → Int
  | a :: b :: rest => getCost a b g + pathCostI getCost g (b :: rest)
  | _ => 0

/-- The 3×3 grid of open cells of the spec's concrete scenario. -/
def grid3 : Grid Char := List.replicate 3 (List.replicate 3 '.')

/-- A 1×2 grid; with an empty direction set, `(0, 1)` is unreachable from
`(0, 0)`. -/
def g12 : Grid Nat := [[0, 0]]

/-- The value of `dijkstra g12 (0,0) (0,1) [] unitCost`, spelled out. -/
def r12w : DijkstraResult :=
  ⟨[((0, 0), (0 : Cost)), ((0, 1), ⊤)], [], [(0, 0), (0, 1)]⟩

/-! ## Theorems on the tuple encoding (claims C5 and C7) -/

theorem splitOnComma_ne_nil (s : List Char) : splitOnComma s ≠ [] := by
  induction s with
  | nil => simp [splitOnComma]
  | cons c cs ih =>
    rw [splitOnComma]
    split
    · simp
    · cases h : splitOnComma cs with
      | nil => simp
      | cons s rest => simp

theorem splitOnComma_no_comma (s : List Char) (h : ',' ∉ s) :
    splitOnComma s = [s] := by
  induction s with
  | nil => rfl
  | cons c cs ih =>
    rw [splitOnComma]
    have hc : ¬ c = ',' := fun hc => h (hc ▸ List.mem_cons_self c cs)
    rw [if_neg hc, ih (fun hm => h (List.mem_cons_of_mem c hm))]

theorem splitOnComma_append_comma (s t : List Char) (h : ',' ∉ s) :
    splitOnComma (s ++ ',' :: t) = s :: splitOnComma t := by
  induction s with
  | nil => simp [splitOnComma]
  | cons c cs ih =>
    have hc : ¬ c = ',' := fun hc => h (hc ▸ List.mem_cons_self c cs)
    have ih2 := ih (fun hm => h (List.mem_cons_of_mem c hm))
    rw [List.cons_append, splitOnComma, if_neg hc, ih2]

theorem splitOnComma_joinComma (L : List (List Char)) (hne : L ≠ [])
    (hcomma : ∀ s ∈ L, ',' ∉ s) : splitOnComma (joinComma L) = L := by
  induction L with
  | nil => exact absurd rfl hne
  | cons s rest ih =>
    cases rest with
    | nil =>
      exact splitOnComma_no_comma s (hcomma s (List.mem_cons_self s []))
    | cons t rest2 =>
      have h1 : joinComma (s :: t :: rest2) = s ++ ',' :: joinComma (t :: rest2) := rfl
      rw [h1, splitOnComma_append_comma _ _ (hcomma s (List.mem_cons_self s _))]
      rw [ih (List.cons_ne_nil t rest2) (fun u hu => hcomma u (List.mem_cons_of_mem s hu))]

theorem charVal_digitChar {d : Nat} (h : d < 10) : charVal (digitChar d) = d := by
  interval_cases d <;> rfl

theorem digitsVal_natToChars (n : Nat) : digitsVal (natToChars n) = n := by
  by_cases h0 : n = 0
  · subst h0; rfl
  · rw [natToChars, if_neg h0, digitsVal, List.map_reverse, List.reverse_reverse,
      List.map_map]
    have : (Nat.digits 10 n).map (charVal ∘ digitChar) = (Nat.digits 10 n).map id :=
      List.map_congr_left
        (fun d hd => charVal_digitChar (Nat.digits_lt_base (by norm_num) hd))
    rw [this, List.map_id, Nat.ofDigits_digits]

theorem natToChars_mem {n : Nat} {c : Char} (h : c ∈ natToChars n) :
    ∃ d, d < 10 ∧ c = digitChar d := by
  by_cases h0 : n = 0
  · subst h0
    simp only [natToChars, if_pos] at h
    rw [List.mem_singleton] at h
    exact ⟨0, by norm_num, by rw [h]; rfl⟩
  · rw [natToChars, if_neg h0] at h
    rw [List.mem_reverse, List.mem_map] at h
    obtain ⟨d, hd, rfl⟩ := h
    exact ⟨d, Nat.digits_lt_base (by norm_num) hd, rfl⟩

theorem natToChars_ne_nil (n : Nat) : natToChars n ≠ [] := by
  by_cases h0 : n = 0
  · subst h0; simp [natToChars]
  · rw [natToChars, if_neg h0]
    simp only [ne_eq, List.reverse_eq_nil_iff, List.map_eq_nil_iff]
    exact Nat.digits_ne_nil_iff_ne_zero.mpr h0

theorem digitChar_ne_comma {d : Nat} (h : d < 10) : digitChar d ≠ ',' := by
  interval_cases d <;> decide

theorem digitChar_ne_minus {d : Nat} (h : d < 10) : digitChar d ≠ Char.ofNat 45 := by
  interval_cases d <;> decide

theorem comma_not_mem_natToChars (n : Nat) : ',' ∉ natToChars n := by
  intro hm
  obtain ⟨d, hd, hc⟩ := natToChars_mem hm
  exact digitChar_ne_comma hd hc.symm

theorem comma_not_mem_intToChars (i : Int) : ',' ∉ intToChars i := by
  rw [intToChars]
  split
  · intro hm
    rcases List.mem_cons.mp hm with h | h
    · exact absurd h.symm (by decide)
    · exact comma_not_mem_natToChars _ h
  · exact comma_not_mem_natToChars _

theorem jsNumber_intToChars (i : Int) : jsNumber (intToChars i) = i := by
  rw [intToChars]
  split
  · rename_i hneg
    rw [jsNumber, if_pos rfl, digitsVal_natToChars]
    omega
  · rename_i hpos
    cases hn : natToChars i.natAbs with
    | nil => exact absurd hn (natToChars_ne_nil _)
    | cons c rest =>
      have hc : c ∈ natToChars i.natAbs := hn ▸ List.mem_cons_self c rest
      obtain ⟨d, hd, rfl⟩ := natToChars_mem hc
      rw [jsNumber, if_neg (digitChar_ne_minus hd), ← hn, digitsVal_natToChars]
      omega

/-- The coordinate-key encoding is injective on integer pairs, so keying the
maps and sets below directly by the pair is observationally identical to the
source keying them by the encoded string. -/
theorem convertTupleToString_injective (a b : List Int) (hne : a ≠ [])
    (h : convertTupleToString a = convertTupleToString b) : a = b := by
  by_cases hb : b = []
  · subst hb
    rw [convertTupleToString] at h
    cases a with
    | nil => rfl
    | cons x xs =>
      exfalso
      cases xs with
      | nil =>
        simp only [convertTupleToString, List.map_cons, List.map_nil, joinComma] at h
        exact natToChars_ne_nil x.natAbs (by
          rw [intToChars] at h
          split at h
          · exact absurd h (by simp)
          · exact h)
      | cons y ys =>
        simp only [convertTupleToString, List.map_cons, joinComma] at h
        exact absurd h (by simp)
  · have ha2 := splitOnComma_joinComma (a.map intToChars) (by simpa using hne)
      (by intro s hs; obtain ⟨i, _, rfl⟩ := List.mem_map.mp hs; exact comma_not_mem_intToChars i)
    have hb2 := splitOnComma_joinComma (b.map intToChars) (by simpa using hb)
      (by intro s hs; obtain ⟨i, _, rfl⟩ := List.mem_map.mp hs; exact comma_not_mem_intToChars i)
    rw [convertTupleToString, convertTupleToString] at h
    have hmaps : a.map intToChars = b.map intToChars := by
      rw [← ha2, ← hb2, h]
    have h3 : ∀ l : List Int, l.map (jsNumber ∘ intToChars) = l := by
      intro l
      have := List.map_congr_left (f := jsNumber ∘ intToChars) (g := id) (l := l)
        (fun i _ => jsNumber_intToChars i)
      simpa using this
    calc a = a.map (jsNumber ∘ intToChars) := (h3 a).symm
      _ = (a.map intToChars).map jsNumber := (List.map_map jsNumber intToChars a).symm
      _ = (b.map intToChars).map jsNumber := by rw [hmaps]
      _ = b.map (jsNumber ∘ intToChars) := List.map_map jsNumber intToChars b
      _ = b := h3 b

/-- C5 counterexample: on the empty tuple the round trip does not return the
tuple — `[].join(",")` is `""`, which splits into one empty segment, so the
decoder-count check (zero decoders) throws instead. -/
theorem convert_roundTrip_cex_empty :
    convertStringToTuple (convertTupleToString [])
      (([] : List Int).map (fun _ => jsNumber)) ≠ .ok [] := by
  rw [convertTupleToString, convertStringToTuple]
  simp [splitOnComma, joinComma]

/-- C5 (amended: nonempty tuples): for every nonempty tuple of integers and
the matching array of `Number` decoders, `convertStringToTuple` applied to
`convertTupleToString` recovers the tuple. -/
theorem convert_roundTrip_nonempty (t : List Int) (h : t ≠ []) :
    convertStringToTuple (convertTupleToString t)
      (t.map (fun _ => jsNumber)) = .ok t := by
  have hsplit : splitOnComma (convertTupleToString t) = t.map intToChars := by
    rw [convertTupleToString]
    exact splitOnComma_joinComma _ (by simpa using h)
      (by intro s hs; obtain ⟨i, _, rfl⟩ := List.mem_map.mp hs; exact comma_not_mem_intToChars i)
  rw [convertStringToTuple, hsplit]
  simp only [List.length_map, if_pos rfl]
  rw [List.zipWith_map, List.zipWith_same]
  simp [jsNumber_intToChars]

/-- Witness for `convert_roundTrip_nonempty` at the concrete tuple `(3, -7)`. -/
theorem convert_roundTrip_nonempty_witness :
    ([(3 : Int), -7] ≠ [] ∧
      convertStringToTuple (convertTupleToString [(3 : Int), -7])
        ([(3 : Int), -7].map (fun _ => jsNumber)) = .ok [(3 : Int), -7]) :=
  ⟨by decide, convert_roundTrip_nonempty [(3 : Int), -7] (by decide)⟩

/-- C7: `convertStringToTuple` throws its `TypeError` exactly when the number
of comma-separated segments differs from the number of converters; when the
counts match it applies each converter positionally to its segment. -/
theorem convertStringToTuple_arity {β : Type} (str : List Char)
    (cs : List (List Char → β)) :
    ((∃ msg, convertStringToTuple str cs = .error msg) ↔
      (splitOnComma str).length ≠ cs.length)
    ∧ ((splitOnComma str).length = cs.length →
        convertStringToTuple str cs =
          .ok (List.zipWith (fun v f => f v) (splitOnComma str) cs)) := by
  rw [convertStringToTuple]
  by_cases h : (splitOnComma str).length = cs.length
  · simp [h]
  · simp [h]

/-- Witness for `convertStringToTuple_arity` at the string `"1,2"` with the
two `Number` converters. -/
theorem convertStringToTuple_arity_witness :
    ((∃ msg, convertStringToTuple [Char.ofNat 49, ',', Char.ofNat 50]
        [jsNumber, jsNumber] = .error msg) ↔
      (splitOnComma [Char.ofNat 49, ',', Char.ofNat 50]).length ≠ 2)
    ∧ ((splitOnComma [Char.ofNat 49, ',', Char.ofNat 50]).length = 2 →
        convertStringToTuple [Char.ofNat 49, ',', Char.ofNat 50]
          [jsNumber, jsNumber] =
          .ok (List.zipWith (fun v f => f v)
            (splitOnComma [Char.ofNat 49, ',', Char.ofNat 50])
            [jsNumber, jsNumber])) := by
  simpa using convertStringToTuple_arity [Char.ofNat 49, ',', Char.ofNat 50]
    [jsNumber, jsNumber]

/-! ## Path reconstruction shape lemmas -/

theorem reconstructPath_ne_nil (prev : List (Coord × Coord)) (s e : Coord)
    (fuel : Nat) :
    reconstructPath prev s e fuel ≠ [] ∧
      (reconstructPath prev s e fuel).head? = some s := by
  simp [reconstructPath]

theorem reconstructPath_break (prev : List (Coord × Coord)) (s e : Coord)
    (fuel : Nat) (hne : ¬ e = s) (hprev : amapGet prev e = none) :
    reconstructPath prev s e (fuel + 1) = [s, e] := by
  rw [reconstructPath, reconstructAux, if_neg hne, hprev]

/-- In the `.ok` case, the returned path is the reconstruction walk over the
returned predecessor map. -/
theorem dijkstra_path_eq {α : Type} (g : Grid α) (s e : Coord)
    (dirs : List Coord) (getCost : Coord → Coord → Grid α → Cost)
    (r : DijkstraResult) (h : dijkstra g s e dirs getCost = .ok r) :
    r.path = reconstructPath r.previous s e ((dijkstraCells g).length + 1) := by
  rw [dijkstra] at h
  split at h
  · exact absurd h (by simp)
  · injection h with h2
    subst h2
    rfl

/-- C2: whenever `dijkstra` returns (in-bounds start and end) and the
distance it recorded for the end is still `Infinity` (end unreachable), the
returned path is nonetheless nonempty and begins with the start coordinate:
unreachability must be detected from the distance map, not path emptiness. -/
theorem dijkstra_unreachable_path_nonempty {α : Type} (g : Grid α)
    (s e : Coord) (dirs : List Coord)
    (getCost : Coord → Coord → Grid α → Cost) (r : DijkstraResult)
    (h : dijkstra g s e dirs getCost = .ok r)
    (hinf : amapGet r.distances e = some ⊤) :
    r.path ≠ [] ∧ r.path.head? = some s := by
  rw [dijkstra_path_eq g s e dirs getCost r h]
  exact reconstructPath_ne_nil r.previous s e ((dijkstraCells g).length + 1)

/-- Witness for `dijkstra_unreachable_path_nonempty`: the 1×2 grid with no
directions, where the end is unreachable. -/
theorem dijkstra_unreachable_path_nonempty_witness :
    (dijkstra g12 (0, 0) (0, 1) [] unitCost = .ok r12w ∧
      amapGet r12w.distances (0, 1) = some ⊤) ∧
      (r12w.path ≠ [] ∧ r12w.path.head? = some (0, 0)) :=
  ⟨⟨by rfl, by rfl⟩,
    dijkstra_unreachable_path_nonempty g12 (0, 0) (0, 1) [] unitCost r12w
      (by rfl) (by rfl)⟩

/-- C8: when start ≠ end and the loop never recorded a predecessor for the
end, the reconstruction chain breaks immediately and the returned path is
exactly `[start, end]` — the end appears even though no path to it exists. -/
theorem dijkstra_no_predecessor_path {α : Type} (g : Grid α) (s e : Coord)
    (dirs : List Coord) (getCost : Coord → Coord → Grid α → Cost)
    (r : DijkstraResult) (h : dijkstra g s e dirs getCost = .ok r)
    (hne : s ≠ e) (hprev : amapGet r.previous e = none) :
    r.path = [s, e] := by
  rw [dijkstra_path_eq g s e dirs getCost r h]
  exact reconstructPath_break r.previous s e (dijkstraCells g).length
    (fun he => hne he.symm) hprev

/-- Witness for `dijkstra_no_predecessor_path` on the 1×2 grid with no
directions. -/
theorem dijkstra_no_predecessor_path_witness :
    (dijkstra g12 (0, 0) (0, 1) [] unitCost = .ok r12w ∧
      ((0, 0) : Coord) ≠ (0, 1) ∧ amapGet r12w.previous (0, 1) = none) ∧
      r12w.path = [(0, 0), (0, 1)] :=
  ⟨⟨by rfl, by decide, by rfl⟩,
    dijkstra_no_predecessor_path g12 (0, 0) (0, 1) [] unitCost r12w
      (by rfl) (by decide) (by rfl)⟩

/-- C3: the spec's concrete 3×3 scenario — all-open grid, start `(0,0)`,
end `(2,2)`, CARDINAL directions, unit cost: Dijkstra records distance `4`
for the end key, BFS returns a path of `5` coordinates, and A* with the
Manhattan heuristic returns a path of summed edge cost `4`. -/
theorem threeByThree_scenario :
    (dijkstra grid3 (0, 0) (2, 2) CARDINAL unitCost).map
        (fun r => amapGet r.distances (2, 2)) = .ok (some 4)
    ∧ (bfs grid3 (0, 0) (2, 2) CARDINAL none).map List.length = .ok 5
    ∧ (astar grid3 (0, 0) (2, 2) CARDINAL unitCostI MANHATTAN).map
        (pathCostI unitCostI grid3) = .ok 4 :=
  ⟨by rfl, by rfl, by rfl⟩

/-- C6: each of `dijkstra`, `bfs` and `astar` throws exactly when the start
or the end coordinate is out of the grid's bounds; for in-bounds start and
end no error is returned. -/
theorem pathfinding_oob_error_iff {α : Type} (g : Grid α) (s e : Coord)
    (dirs : List Coord) (getCost : Coord → Coord → Grid α → Cost)
    (getCostI : Coord → Coord → Grid α → Int)
    (heuristic : Coord → Coord → Int)
    (valid : Option (Coord → Coord → Grid α → Bool)) :
    ((∃ msg, dijkstra g s e dirs getCost = .error msg) ↔
        ¬(isInBounds g s.1 s.2 = true ∧ isInBounds g e.1 e.2 = true))
    ∧ ((∃ msg, bfs g s e dirs valid = .error msg) ↔
        ¬(isInBounds g s.1 s.2 = true ∧ isInBounds g e.1 e.2 = true))
    ∧ ((∃ msg, astar g s e dirs getCostI heuristic = .error msg) ↔
        ¬(isInBounds g s.1 s.2 = true ∧ isInBounds g e.1 e.2 = true)) := by
  rw [dijkstra, bfs, astar]
  by_cases h1 : isInBounds g s.1 s.2 = true <;>
    by_cases h2 : isInBounds g e.1 e.2 = true <;>
    simp [h1, h2]

/-- C1 counterexample: on the 1×2 grid with an empty direction set the end
is unreachable — dijkstra records `Infinity` for the end key while bfs
returns the empty array, whose length minus 1 is `-1 ≠ Infinity`; so the
agreement as stated fails for unreachable ends. -/
theorem dijkstra_bfs_agree_cex :
    (dijkstra g12 (0, 0) (0, 1) [] unitCost).map
        (fun r => amapGet r.distances (0, 1)) = .ok (some ⊤)
    ∧ bfs g12 (0, 0) (0, 1) [] none = .ok []
    ∧ (⊤ : Cost) ≠ (((List.length ([] : List Coord) : Int) - 1 : Int) : Cost) :=
  ⟨by rfl, by rfl, by decide⟩

/-! ## Map, set and bounds lemmas -/

theorem amapGet_amapSet {β : Type} (m : List (Coord × β)) (k k2 : Coord)
    (v : β) :
    amapGet (amapSet m k v) k2 = if k = k2 then some v else amapGet m k2 := by
  induction m with
  | nil => simp [amapSet, amapGet]
  | cons x m ih =>
    rw [amapSet]
    by_cases hx : x.1 = k
    · rw [if_pos hx, amapGet, amapGet]
      by_cases hk : k = k2
      · simp [hk]
      · rw [if_neg hk, if_neg hk, if_neg (fun h2 => hk (hx.symm.trans h2))]
    · rw [if_neg hx, amapGet, amapGet, ih]
      by_cases hxk : x.1 = k2
      · rw [if_pos hxk, if_pos hxk,
          if_neg (fun hk => hx (by rw [hk, hxk]))]
      · rw [if_neg hxk, if_neg hxk]

theorem isInBounds_iff {α : Type} (g : Grid α) (r c : Int) :
    isInBounds g r c = true ↔
      0 ≤ r ∧ r < (rowCount g : Int) ∧ 0 ≤ c ∧ c < (colCount g : Int) := by
  simp [isInBounds, and_assoc]

/-- A duplicate-free list of in-bounds coordinates has at most
`rows × cols` entries. -/
theorem nodup_inBounds_length_le {α : Type} (g : Grid α) (l : List Coord)
    (hnd : l.Nodup) (hb : ∀ v ∈ l, isInBounds g v.1 v.2 = true) :
    l.length ≤ rowCount g * colCount g := by
  classical
  have hsub : l.toFinset ⊆
      (Finset.range (rowCount g) ×ˢ Finset.range (colCount g)).image
        (fun p => ((p.1 : Int), (p.2 : Int))) := by
    intro v hv
    rw [List.mem_toFinset] at hv
    have hbv := (isInBounds_iff g v.1 v.2).mp (hb v hv)
    rw [Finset.mem_image]
    refine ⟨(v.1.toNat, v.2.toNat), ?_, ?_⟩
    · rw [Finset.mem_product, Finset.mem_range, Finset.mem_range]
      omega
    · rw [Prod.ext_iff]
      refine ⟨?_, ?_⟩
      · show ((v.1.toNat : Int)) = v.1
        omega
      · show ((v.2.toNat : Int)) = v.2
        omega
  have h1 := Finset.card_le_card hsub
  have h2 := Finset.card_image_le
    (s := Finset.range (rowCount g) ×ˢ Finset.range (colCount g))
    (f := fun p => ((p.1 : Int), (p.2 : Int)))
  rw [Finset.card_product, Finset.card_range, Finset.card_range] at h2
  rw [List.toFinset_card_of_nodup hnd] at h1
  omega

/-- Any coordinate reached by a walk is the start or in bounds. -/
theorem reachN_inB {α : Type} (g : Grid α) (dirs : List Coord)
    (valid : Option (Coord → Coord → Grid α → Bool)) (s : Coord)
    (m : Nat) (v : Coord) (h : ReachN g dirs valid s m v) :
    v = s ∨ isInBounds g v.1 v.2 = true := by
  cases m with
  | zero => exact Or.inl h
  | succ n =>
    obtain ⟨u, _, hstep⟩ := h
    exact Or.inr hstep.2.1

theorem chain_snoc {R : Coord → Coord → Prop} :
    ∀ (l : List Coord) (a b c : Coord), List.Chain R a l →
      (a :: l).getLast? = some b → R b c → List.Chain R a (l ++ [c]) := by
  intro l
  induction l with
  | nil =>
    intro a b c _ hlast hR
    simp only [List.getLast?_singleton, Option.some.injEq] at hlast
    subst hlast
    exact List.Chain.cons hR List.Chain.nil
  | cons x xs ih =>
    intro a b c hch hlast hR
    rw [List.chain_cons] at hch
    rw [List.getLast?_cons_cons] at hlast
    exact List.Chain.cons hch.1 (ih x b c hch.2 hlast hR)

/-- One BFS expansion appends a block `new` of fresh coordinates to both the
queue and the visited set: the members of `new` are exactly the not-yet
visited legal successors of `cur` (each recorded once, with `cur` as
predecessor), and afterwards every legal successor of `cur` is visited. -/
theorem bfsExpand_spec {α : Type} (g : Grid α)
    (valid : Option (Coord → Coord → Grid α → Bool)) (cur : Coord) :
    ∀ (ds : List Coord) (q0 vis0 : List Coord) (prev0 : List (Coord × Coord)),
    ∃ new prev2, bfsExpand g valid ds cur (q0, vis0, prev0) =
        (q0 ++ new, vis0 ++ new, prev2) ∧
      new.Nodup ∧
      (∀ w ∈ new, w ∉ vis0 ∧ (∃ d ∈ ds, w = (cur.1 + d.1, cur.2 + d.2)) ∧
        isInBounds g w.1 w.2 = true ∧ validOk valid cur w g = true) ∧
      (∀ w : Coord, (∃ d ∈ ds, w = (cur.1 + d.1, cur.2 + d.2)) →
        isInBounds g w.1 w.2 = true → validOk valid cur w g = true →
        w ∈ vis0 ++ new) ∧
      (∀ k : Coord, amapGet prev2 k =
        if k ∈ new then some cur else amapGet prev0 k) := by
  intro ds
  induction ds with
  | nil =>
    intro q0 vis0 prev0
    refine ⟨[], prev0, by simp [bfsExpand], List.nodup_nil, by simp, ?_, by simp⟩
    intro w hw
    simp at hw
  | cons d ds ih =>
    intro q0 vis0 prev0
    rw [bfsExpand]
    set w0 : Coord := (cur.1 + d.1, cur.2 + d.2) with hw0
    by_cases hib : isInBounds g (cur.1 + d.1) (cur.2 + d.2) = true
    · by_cases hvis : w0 ∈ vis0
      · rw [if_pos hib, if_pos hvis]
        obtain ⟨new, prev2, heq, hnd, hmem, hcov, hprev⟩ := ih q0 vis0 prev0
        refine ⟨new, prev2, heq, hnd, ?_, ?_, hprev⟩
        · intro w hw
          obtain ⟨h1, ⟨d2, hd2, he2⟩, h3, h4⟩ := hmem w hw
          exact ⟨h1, ⟨d2, List.mem_cons_of_mem d hd2, he2⟩, h3, h4⟩
        · intro w ⟨d2, hd2, he2⟩ hb hv
          rcases List.mem_cons.mp hd2 with rfl | hd2
          · rw [← hw0] at he2
            subst he2
            exact List.mem_append.mpr (Or.inl hvis)
          · exact hcov w ⟨d2, hd2, he2⟩ hb hv
      · by_cases hva : validOk valid cur w0 g = true
        · rw [if_pos hib, if_neg hvis, if_pos hva]
          obtain ⟨new, prev2, heq, hnd, hmem, hcov, hprev⟩ :=
            ih (q0 ++ [w0]) (vis0 ++ [w0]) (amapSet prev0 w0 cur)
          have hw0new : w0 ∉ new := by
            intro hw
            exact (hmem w0 hw).1 (List.mem_append.mpr (Or.inr (by simp)))
          refine ⟨w0 :: new, prev2, ?_, ?_, ?_, ?_, ?_⟩
          · rw [heq]
            simp [List.append_assoc]
          · exact List.Nodup.cons hw0new hnd
          · intro w hw
            rcases List.mem_cons.mp hw with rfl | hw
            · exact ⟨hvis, ⟨d, List.mem_cons_self d ds, hw0⟩, hib, hva⟩
            · obtain ⟨h1, ⟨d2, hd2, he2⟩, h3, h4⟩ := hmem w hw
              refine ⟨fun hmem2 => h1 (List.mem_append.mpr (Or.inl hmem2)),
                ⟨d2, List.mem_cons_of_mem d hd2, he2⟩, h3, h4⟩
          · intro w ⟨d2, hd2, he2⟩ hb hv
            rcases List.mem_cons.mp hd2 with rfl | hd2
            · rw [← hw0] at he2
              subst he2
              exact List.mem_append.mpr (Or.inr (List.mem_cons_self _ _))
            · have := hcov w ⟨d2, hd2, he2⟩ hb hv
              rcases List.mem_append.mp this with h | h
              · rcases List.mem_append.mp h with h2 | h2
                · exact List.mem_append.mpr (Or.inl h2)
                · rw [List.mem_singleton] at h2
                  subst h2
                  exact List.mem_append.mpr (Or.inr (List.mem_cons_self _ _))
              · exact List.mem_append.mpr (Or.inr (List.mem_cons_of_mem _ h))
          · intro k
            rw [hprev k]
            by_cases hk : k ∈ new
            · rw [if_pos hk, if_pos (List.mem_cons_of_mem _ hk)]
            · rw [if_neg hk, amapGet_amapSet]
              by_cases hkw : k = w0
              · rw [if_pos hkw.symm, if_pos (by simp [hkw])]
              · rw [if_neg (fun h => hkw h.symm),
                  if_neg (by simp [hkw, hk])]
        · rw [if_pos hib, if_neg hvis, if_neg hva]
          obtain ⟨new, prev2, heq, hnd, hmem, hcov, hprev⟩ := ih q0 vis0 prev0
          refine ⟨new, prev2, heq, hnd, ?_, ?_, hprev⟩
          · intro w hw
            obtain ⟨h1, ⟨d2, hd2, he2⟩, h3, h4⟩ := hmem w hw
            exact ⟨h1, ⟨d2, List.mem_cons_of_mem d hd2, he2⟩, h3, h4⟩
          · intro w ⟨d2, hd2, he2⟩ hb hv
            rcases List.mem_cons.mp hd2 with rfl | hd2
            · rw [← hw0] at he2
              subst he2
              exact absurd hv hva
            · exact hcov w ⟨d2, hd2, he2⟩ hb hv
    · rw [if_neg hib]
      obtain ⟨new, prev2, heq, hnd, hmem, hcov, hprev⟩ := ih q0 vis0 prev0
      refine ⟨new, prev2, heq, hnd, ?_, ?_, hprev⟩
      · intro w hw
        obtain ⟨h1, ⟨d2, hd2, he2⟩, h3, h4⟩ := hmem w hw
        exact ⟨h1, ⟨d2, List.mem_cons_of_mem d hd2, he2⟩, h3, h4⟩
      · intro w ⟨d2, hd2, he2⟩ hb hv
        rcases List.mem_cons.mp hd2 with rfl | hd2
        · rw [← hw0] at he2
          subst he2
          exact absurd hb hib
        · exact hcov w ⟨d2, hd2, he2⟩ hb hv

/-! ## BFS invariant: initialization, normalization, preservation -/

theorem bfsInv_initial {α : Type} (g : Grid α) (dirs : List Coord)
    (valid : Option (Coord → Coord → Grid α → Bool)) (s e : Coord)
    (hs : isInBounds g s.1 s.2 = true) :
    BfsInv g dirs valid s e (fun _ => 0) [s] [s] [] := by
  refine ⟨List.nodup_singleton s, ?_, fun x hx => hx, List.mem_singleton_self s,
    rfl, ?_, ?_, ?_, fun hev => hev, ?_, ?_⟩
  · intro v hv
    rw [List.mem_singleton] at hv
    subst hv
    exact hs
  · intro v hv
    rw [List.mem_singleton] at hv
    subst hv
    rfl
  · intro v _ m _
    exact Nat.zero_le m
  · intro v hv hne
    rw [List.mem_singleton] at hv
    exact absurd hv hne
  · intro v hv hnq
    exact absurd hv hnq
  · refine ⟨0, [s], [], rfl, fun x _ => rfl, ?_, ?_⟩
    · intro x hx
      exact absurd hx (List.not_mem_nil x)
    · intro v m hm hr
      interval_cases m
      rw [List.mem_singleton]
      exact hr

/-- Normalize the queue blocks so that the first block is headed by the
dequeued coordinate: if the depth-`a` block is exhausted, the whole queue
sits at depth `a + 1` and everything within distance `a + 1` is already
visited, because every depth-`a` coordinate has been processed. -/
theorem bfsInv_blocks_head {α : Type} {g : Grid α} {dirs : List Coord}
    {valid : Option (Coord → Coord → Grid α → Bool)} {s e : Coord}
    {lvl : Coord → Nat} {u : Coord} {rest vis : List Coord}
    {prev : List (Coord × Coord)}
    (inv : BfsInv g dirs valid s e lvl (u :: rest) vis prev) :
    ∃ a q1 q2, u :: rest = (u :: q1) ++ q2 ∧ lvl u = a ∧
      (∀ x ∈ u :: q1, lvl x = a) ∧ (∀ x ∈ q2, lvl x = a + 1) ∧
      (∀ v m, m ≤ a → ReachN g dirs valid s m v → v ∈ vis) := by
  obtain ⟨a, q1, q2, heq, h1, h2, hclos⟩ := inv.blocks
  cases q1 with
  | cons x q1 =>
    rw [List.cons_append] at heq
    injection heq with hux hrest
    subst hux
    refine ⟨a, q1, q2, by rw [List.cons_append, hrest], h1 u (by simp), h1, h2, hclos⟩
  | nil =>
    rw [List.nil_append] at heq
    refine ⟨a + 1, rest, [], by simp, ?_, ?_, ?_, ?_⟩
    · exact h2 u (heq ▸ List.mem_cons_self u rest)
    · intro x hx
      exact h2 x (heq ▸ hx)
    · intro x hx
      exact absurd hx (List.not_mem_nil x)
    · intro v m hm hr
      by_cases hm2 : m ≤ a
      · exact hclos v m hm2 hr
      · have hma : m = a + 1 := by omega
        subst hma
        rw [ReachN] at hr
        obtain ⟨w, hw, hstep⟩ := hr
        have hwvis : w ∈ vis := hclos w a le_rfl hw
        have hwnq : w ∉ u :: rest := by
          intro hwq
          have := inv.visOpt w hwvis a hw
          have := h2 w (heq ▸ hwq)
          omega
        exact inv.processed w hwvis hwnq v hstep

/-- Dequeuing and expanding a non-end coordinate preserves the BFS invariant:
the fresh successors are appended to queue and visited set at depth
`lvl u + 1`. -/
theorem bfsInv_preserve {α : Type} {g : Grid α} {dirs : List Coord}
    {valid : Option (Coord → Coord → Grid α → Bool)} {s e : Coord}
    {lvl : Coord → Nat} {u : Coord} {rest vis : List Coord}
    {prev : List (Coord × Coord)}
    (inv : BfsInv g dirs valid s e lvl (u :: rest) vis prev) (hne : u ≠ e) :
    ∃ lvl2 new prev2,
      bfsExpand g valid dirs u (rest, vis, prev) =
        (rest ++ new, vis ++ new, prev2) ∧
      BfsInv g dirs valid s e lvl2 (rest ++ new) (vis ++ new) prev2 := by
  obtain ⟨a, q1, q2, heq, hlvlu, hq1, hq2, hclos⟩ := bfsInv_blocks_head inv
  obtain ⟨new, prev2, hexp, hnewnd, hmem, hcov, hprev⟩ :=
    bfsExpand_spec g valid u dirs rest vis prev
  have huvis : u ∈ vis := inv.qSub u (List.mem_cons_self u rest)
  have hdisj : ∀ w ∈ new, w ∉ vis := fun w hw => (hmem w hw).1
  have hrest : rest = q1 ++ q2 := by
    have h2 : u :: rest = u :: (q1 ++ q2) := by rw [heq, List.cons_append]
    exact (List.cons.inj h2).2
  refine ⟨fun v => if v ∈ new then a + 1 else lvl v, new, prev2, hexp, ?_⟩
  have hlvl2old : ∀ v ∈ vis,
      (if v ∈ new then a + 1 else lvl v) = lvl v := by
    intro v hv
    rw [if_neg (fun hv2 => hdisj v hv2 hv)]
  have hlvl2new : ∀ v ∈ new,
      (if v ∈ new then a + 1 else lvl v) = a + 1 := by
    intro v hv
    rw [if_pos hv]
  have hstepnew : ∀ w ∈ new, stepRel g dirs valid u w := by
    intro w hw
    obtain ⟨_, hd, hb, hv⟩ := hmem w hw
    exact ⟨hd, hb, hv⟩
  refine ⟨?_, ?_, ?_, ?_, ?_, ?_, ?_, ?_, ?_, ?_, ?_⟩
  · exact List.Nodup.append inv.visNodup hnewnd
      (fun x hx hxn => hdisj x hxn hx)
  · intro v hv
    rcases List.mem_append.mp hv with h | h
    · exact inv.visBounds v h
    · exact (hmem v h).2.2.1
  · intro x hx
    rcases List.mem_append.mp hx with h | h
    · exact List.mem_append.mpr
        (Or.inl (inv.qSub x (List.mem_cons_of_mem u h)))
    · exact List.mem_append.mpr (Or.inr h)
  · exact List.mem_append.mpr (Or.inl inv.startVis)
  · rw [hlvl2old s inv.startVis]
    exact inv.lvlStart
  · intro v hv
    rcases List.mem_append.mp hv with h | h
    · rw [hlvl2old v h]
      exact inv.visReach v h
    · rw [hlvl2new v h, ReachN]
      exact ⟨u, hlvlu ▸ inv.visReach u huvis, hstepnew v h⟩
  · intro v hv m hm
    rcases List.mem_append.mp hv with h | h
    · rw [hlvl2old v h]
      exact inv.visOpt v h m hm
    · rw [hlvl2new v h]
      by_contra hcon
      have hma : m ≤ a := by omega
      exact hdisj v h (hclos v m hma hm)
  · intro v hv hvs
    rcases List.mem_append.mp hv with h | h
    · obtain ⟨p, hp1, hp2, hp3, hp4⟩ := inv.prevLink v h hvs
      refine ⟨p, ?_, List.mem_append.mpr (Or.inl hp2), hp3, ?_⟩
      · rw [hprev v, if_neg (fun hv2 => hdisj v hv2 h)]
        exact hp1
      · rw [hlvl2old v h, hlvl2old p hp2]
        exact hp4
    · refine ⟨u, ?_, List.mem_append.mpr (Or.inl huvis), hstepnew v h, ?_⟩
      · rw [hprev v, if_pos h]
      · rw [hlvl2new v h, hlvl2old u huvis, hlvlu]
  · intro hev
    rcases List.mem_append.mp hev with h | h
    · have := inv.endQ h
      rcases List.mem_cons.mp this with h2 | h2
      · exact absurd h2.symm hne
      · exact List.mem_append.mpr (Or.inl h2)
    · exact List.mem_append.mpr (Or.inr h)
  · intro v hv hnq w hstep
    rcases List.mem_append.mp hv with h | h
    · by_cases hvu : v = u
      · subst hvu
        obtain ⟨hd, hb, hvo⟩ := hstep
        exact hcov w hd hb hvo
      · have hvnq : v ∉ u :: rest := by
          intro hvq
          rcases List.mem_cons.mp hvq with h2 | h2
          · exact hvu h2
          · exact hnq (List.mem_append.mpr (Or.inl h2))
        exact List.mem_append.mpr
          (Or.inl (inv.processed v h hvnq w hstep))
    · exact absurd (List.mem_append.mpr (Or.inr h)) hnq
  · refine ⟨a, q1, q2 ++ new, ?_, ?_, ?_, ?_⟩
    · rw [hrest, List.append_assoc]
    · intro x hx
      have hxq : x ∈ u :: rest := by
        rw [hrest]
        exact List.mem_cons_of_mem u (List.mem_append.mpr (Or.inl hx))
      rw [hlvl2old x (inv.qSub x hxq)]
      exact hq1 x (List.mem_cons_of_mem u hx)
    · intro x hx
      rcases List.mem_append.mp hx with h | h
      · have hxq : x ∈ u :: rest := by
          rw [hrest]
          exact List.mem_cons_of_mem u (List.mem_append.mpr (Or.inr h))
        rw [hlvl2old x (inv.qSub x hxq)]
        exact hq2 x h
      · exact hlvl2new x h
    · intro v m hm hr
      exact List.mem_append.mpr (Or.inl (hclos v m hm hr))

/-! ## BFS path reconstruction and loop lemmas -/

/-- Walking the predecessor links from a visited coordinate with enough fuel
produces, in front of the accumulator, a chain of `lvl v` legal moves from
the start to `v`, visiting only visited coordinates at strictly increasing
depths. -/
theorem reconstructAux_spec {α : Type} {g : Grid α} {dirs : List Coord}
    {valid : Option (Coord → Coord → Grid α → Bool)} {s : Coord}
    {lvl : Coord → Nat} {vis : List Coord} {prev : List (Coord × Coord)}
    (hstart : lvl s = 0)
    (hlink : ∀ v ∈ vis, v ≠ s → ∃ p, amapGet prev v = some p ∧ p ∈ vis ∧
      stepRel g dirs valid p v ∧ lvl v = lvl p + 1) :
    ∀ (k : Nat) (v : Coord), v ∈ vis → lvl v = k → ∀ (fuel : Nat), k ≤ fuel →
      ∀ (acc : List Coord), ∃ ch,
        reconstructAux prev s fuel v acc = ch ++ acc ∧ ch.length = k ∧
        List.Chain (stepRel g dirs valid) s ch ∧
        (s :: ch).getLast? = some v ∧ (∀ x ∈ ch, x ∈ vis) ∧
        (s :: ch).map lvl = List.range (k + 1) := by
  intro k
  induction k with
  | zero =>
    intro v hv hlv fuel hfuel acc
    have hvs : v = s := by
      by_contra hvs
      obtain ⟨p, _, _, _, hp4⟩ := hlink v hv hvs
      omega
    subst hvs
    refine ⟨[], ?_, rfl, List.Chain.nil, by simp, by simp,
      by rw [List.map_singleton, hstart]; rfl⟩
    cases fuel with
    | zero => rfl
    | succ f => rw [reconstructAux, if_pos rfl]; rfl
  | succ k ih =>
    intro v hv hlv fuel hfuel acc
    have hvs : ¬ v = s := by
      intro h
      rw [h, hstart] at hlv
      omega
    obtain ⟨p, hp1, hp2, hp3, hp4⟩ := hlink v hv hvs
    have hlp : lvl p = k := by omega
    cases fuel with
    | zero => omega
    | succ f =>
      obtain ⟨ch, ihe, ihl, ihc, ihlast, ihvis, ihmap⟩ :=
        ih p hp2 hlp f (by omega) (v :: acc)
      refine ⟨ch ++ [v], ?_, ?_, ?_, ?_, ?_, ?_⟩
      · rw [reconstructAux, if_neg hvs, hp1]
        show reconstructAux prev s f p (v :: acc) = ch ++ [v] ++ acc
        rw [ihe, List.append_assoc]
        rfl
      · simp [ihl]
      · exact chain_snoc ch s p v ihc ihlast hp3
      · show ((s :: ch) ++ [v]).getLast? = some v
        rw [List.getLast?_concat]
      · intro x hx
        rcases List.mem_append.mp hx with h | h
        · exact ihvis x h
        · rw [List.mem_singleton] at h
          subst h
          exact hv
      · show ((s :: ch) ++ [v]).map lvl = List.range (k + 1 + 1)
        rw [List.map_append, ihmap, List.map_singleton, hlv, ← List.range_succ]

/-- A visited coordinate's depth is below the number of visited
coordinates. -/
theorem bfsInv_lvl_le {α : Type} {g : Grid α} {dirs : List Coord}
    {valid : Option (Coord → Coord → Grid α → Bool)} {s e : Coord}
    {lvl : Coord → Nat} {q vis : List Coord} {prev : List (Coord × Coord)}
    (inv : BfsInv g dirs valid s e lvl q vis prev) (v : Coord)
    (hv : v ∈ vis) : lvl v + 1 ≤ vis.length := by
  obtain ⟨ch, _, hlen, _, _, hchvis, hmap⟩ :=
    reconstructAux_spec inv.lvlStart inv.prevLink (lvl v) v hv rfl (lvl v)
      le_rfl []
  have hnd : (s :: ch).Nodup := by
    have h2 : ((s :: ch).map lvl).Nodup := by
      rw [hmap]
      exact List.nodup_range _
    exact List.Nodup.of_map lvl h2
  have hsub : (s :: ch) ⊆ vis := by
    intro x hx
    rcases List.mem_cons.mp hx with h | h
    · subst h
      exact inv.startVis
    · exact hchvis x h
  have hle := List.Subperm.length_le (List.subperm_of_subset hnd hsub)
  simp only [List.length_cons, hlen] at hle
  omega

/-- When the BFS loop finds a nonempty path, that path runs from start to
end along legal moves and its step count is the exact shortest walk
length. -/
theorem bfsLoop_found {α : Type} {g : Grid α} {dirs : List Coord}
    {valid : Option (Coord → Coord → Grid α → Bool)} {s e : Coord} :
    ∀ (fuel : Nat) (q vis : List Coord) (prev : List (Coord × Coord))
      (lvl : Coord → Nat),
      BfsInv g dirs valid s e lvl q vis prev →
      ∀ P, bfsLoop g valid dirs s e fuel q vis prev = some P → P ≠ [] →
      P.head? = some s ∧ P.getLast? = some e ∧
        List.Chain' (stepRel g dirs valid) P ∧
        ReachN g dirs valid s (P.length - 1) e ∧
        (∀ m, ReachN g dirs valid s m e → P.length - 1 ≤ m) := by
  intro fuel
  induction fuel with
  | zero =>
    intro q vis prev lvl _ P hP
    rw [bfsLoop] at hP
    exact absurd hP (by simp)
  | succ f ih =>
    intro q vis prev lvl inv P hP hPne
    cases q with
    | nil =>
      rw [bfsLoop] at hP
      injection hP with h
      exact absurd h.symm hPne
    | cons cur rest =>
      rw [bfsLoop] at hP
      by_cases hce : cur = e
      · rw [if_pos hce] at hP
        injection hP with h
        have hevis : e ∈ vis := hce ▸ inv.qSub cur (List.mem_cons_self cur rest)
        have hbound : lvl e + 1 ≤ vis.length := bfsInv_lvl_le inv e hevis
        have hcard : vis.length ≤ rowCount g * colCount g :=
          nodup_inBounds_length_le g vis inv.visNodup inv.visBounds
        obtain ⟨ch, hch1, hch2, hch3, hch4, hch5, hch6⟩ :=
          reconstructAux_spec inv.lvlStart inv.prevLink (lvl e) e hevis rfl
            (rowCount g * colCount g + 1) (by omega) []
        have hPval : P = s :: ch := by
          rw [← h, reconstructPath, hch1, List.append_nil]
        subst hPval
        have hlenP : (s :: ch).length - 1 = lvl e := by
          simp [hch2]
        refine ⟨rfl, hch4, hch3, ?_, ?_⟩
        · rw [hlenP]
          exact inv.visReach e hevis
        · intro m hm
          rw [hlenP]
          exact inv.visOpt e hevis m hm
      · rw [if_neg hce] at hP
        obtain ⟨lvl2, new, prev2, hexp, inv2⟩ := bfsInv_preserve inv hce
        simp only [hexp] at hP
        exact ih _ _ _ lvl2 inv2 P hP hPne

/-- If the BFS loop exhausts its queue (returning the empty path), the end
is not reachable. -/
theorem bfsLoop_exhaust {α : Type} {g : Grid α} {dirs : List Coord}
    {valid : Option (Coord → Coord → Grid α → Bool)} {s e : Coord} :
    ∀ (fuel : Nat) (q vis : List Coord) (prev : List (Coord × Coord))
      (lvl : Coord → Nat),
      BfsInv g dirs valid s e lvl q vis prev →
      bfsLoop g valid dirs s e fuel q vis prev = some [] →
      ¬ Reachable g dirs valid s e := by
  intro fuel
  induction fuel with
  | zero =>
    intro q vis prev lvl _ hP
    rw [bfsLoop] at hP
    exact absurd hP (by simp)
  | succ f ih =>
    intro q vis prev lvl inv hP
    cases q with
    | nil =>
      intro hreach
      obtain ⟨n, hn⟩ := hreach
      have hclosed : ∀ (m : Nat) (v : Coord), ReachN g dirs valid s m v →
          v ∈ vis := by
        intro m
        induction m with
        | zero =>
          intro v hv
          rw [ReachN] at hv
          subst hv
          exact inv.startVis
        | succ m ihm =>
          intro v hv
          rw [ReachN] at hv
          obtain ⟨u, hu, hstep⟩ := hv
          exact inv.processed u (ihm u hu) (List.not_mem_nil u) v hstep
      exact absurd (inv.endQ (hclosed n e hn)) (List.not_mem_nil e)
    | cons cur rest =>
      rw [bfsLoop] at hP
      by_cases hce : cur = e
      · rw [if_pos hce] at hP
        injection hP with h
        exact absurd h (by simp [reconstructPath])
      · rw [if_neg hce] at hP
        obtain ⟨lvl2, new, prev2, hexp, inv2⟩ := bfsInv_preserve inv hce
        simp only [hexp] at hP
        exact ih _ _ _ lvl2 inv2 hP

/-- Fuel sufficiency of the BFS loop: the measure
`queue length + (cells − visited)` drops by one per iteration, so any fuel
above it never runs out. -/
theorem bfsLoop_some {α : Type} {g : Grid α} {dirs : List Coord}
    {valid : Option (Coord → Coord → Grid α → Bool)} {s e : Coord} :
    ∀ (fuel : Nat) (q vis : List Coord) (prev : List (Coord × Coord))
      (lvl : Coord → Nat),
      BfsInv g dirs valid s e lvl q vis prev →
      q.length + (rowCount g * colCount g - vis.length) < fuel →
      bfsLoop g valid dirs s e fuel q vis prev ≠ none := by
  intro fuel
  induction fuel with
  | zero =>
    intro q vis prev lvl _ hm
    omega
  | succ f ih =>
    intro q vis prev lvl inv hm
    cases q with
    | nil =>
      rw [bfsLoop]
      simp
    | cons cur rest =>
      rw [bfsLoop]
      by_cases hce : cur = e
      · rw [if_pos hce]
        simp
      · rw [if_neg hce]
        obtain ⟨lvl2, new, prev2, hexp, inv2⟩ := bfsInv_preserve inv hce
        simp only [hexp]
        apply ih _ _ _ lvl2 inv2
        have hvisle : (vis ++ new).length ≤ rowCount g * colCount g :=
          nodup_inBounds_length_le g _ inv2.visNodup inv2.visBounds
        have hlen2 : (vis ++ new).length = vis.length + new.length :=
          List.length_append vis new
        rw [List.length_append, hlen2]
        rw [hlen2] at hvisle
        simp only [List.length_cons] at hm
        omega

/-- In the `.ok` case, `bfs` ran with in-bounds start and end and returned
the loop's answer (defaulting to `[]` only if fuel ran out, which
`bfs_fuel_sufficient` excludes). -/
theorem bfs_ok_eq {α : Type} (g : Grid α) (s e : Coord) (dirs : List Coord)
    (valid : Option (Coord → Coord → Grid α → Bool)) (P : List Coord)
    (h : bfs g s e dirs valid = .ok P) :
    isInBounds g s.1 s.2 = true ∧ isInBounds g e.1 e.2 = true ∧
      (bfsLoop g valid dirs s e (rowCount g * colCount g + 1)
        [s] [s] []).getD [] = P := by
  rw [bfs] at h
  split at h
  · exact absurd h (by simp)
  · rename_i hcond
    cases ha : isInBounds g s.1 s.2 with
    | false => exact absurd (by rw [ha]; rfl) hcond
    | true =>
      cases hb : isInBounds g e.1 e.2 with
      | false => exact absurd (by rw [ha, hb]; rfl) hcond
      | true =>
        injection h with h2
        exact ⟨rfl, rfl, h2⟩

/-- C9: every nonempty path returned by `bfs` begins with the start, ends
with the end, and each consecutive pair is one supplied direction step to an
in-bounds cell accepted by the optional predicate. -/
theorem bfs_path_valid {α : Type} (g : Grid α) (s e : Coord)
    (dirs : List Coord) (valid : Option (Coord → Coord → Grid α → Bool))
    (P : List Coord) (h : bfs g s e dirs valid = .ok P) (hne : P ≠ []) :
    P.head? = some s ∧ P.getLast? = some e ∧
      List.Chain' (stepRel g dirs valid) P := by
  obtain ⟨h1, _, h3⟩ := bfs_ok_eq g s e dirs valid P h
  cases hbl : bfsLoop g valid dirs s e (rowCount g * colCount g + 1)
      [s] [s] [] with
  | none =>
    rw [hbl] at h3
    simp only [Option.getD_none] at h3
    exact absurd h3.symm hne
  | some r =>
    rw [hbl] at h3
    simp only [Option.getD_some] at h3
    rw [← h3] at hne ⊢
    have hfound := bfsLoop_found _ _ _ _ (fun _ => 0)
      (bfsInv_initial g dirs valid s e h1) r hbl hne
    exact ⟨hfound.1, hfound.2.1, hfound.2.2.1⟩

/-- Witness for `bfs_path_valid`: the 3×3 grid with an always-true
predicate. -/
theorem bfs_path_valid_witness :
    (bfs grid3 (0, 0) (2, 2) CARDINAL (some (fun _ _ _ => true)) =
        .ok [(0, 0), (0, 1), (0, 2), (1, 2), (2, 2)] ∧
      ([(0, 0), (0, 1), (0, 2), (1, 2), (2, 2)] : List Coord) ≠ []) ∧
      (([(0, 0), (0, 1), (0, 2), (1, 2), (2, 2)] : List Coord).head? =
          some (0, 0) ∧
        ([(0, 0), (0, 1), (0, 2), (1, 2), (2, 2)] : List Coord).getLast? =
          some (2, 2) ∧
        List.Chain' (stepRel grid3 CARDINAL (some (fun _ _ _ => true)))
          [(0, 0), (0, 1), (0, 2), (1, 2), (2, 2)]) :=
  ⟨⟨by rfl, by decide⟩,
    bfs_path_valid grid3 (0, 0) (2, 2) CARDINAL (some (fun _ _ _ => true))
      [(0, 0), (0, 1), (0, 2), (1, 2), (2, 2)] (by rfl) (by decide)⟩

/-- C10: the BFS main loop always terminates on a finite grid — with fuel
`rows × cols + 1` (one unit per dequeue, and at most `rows × cols`
coordinates are ever enqueued because a coordinate is marked visited exactly
when enqueued and never re-enqueued) the loop never runs out. -/
theorem bfs_fuel_sufficient {α : Type} (g : Grid α) (s e : Coord)
    (dirs : List Coord) (valid : Option (Coord → Coord → Grid α → Bool))
    (hs : isInBounds g s.1 s.2 = true) :
    bfsLoop g valid dirs s e (rowCount g * colCount g + 1) [s] [s] [] ≠
      none := by
  apply bfsLoop_some _ _ _ _ (fun _ => 0) (bfsInv_initial g dirs valid s e hs)
  have h1 : ([s] : List Coord).length ≤ rowCount g * colCount g :=
    nodup_inBounds_length_le g [s] (List.nodup_singleton s)
      (by intro v hv; rw [List.mem_singleton] at hv; subst hv; exact hs)
  simp only [List.length_singleton] at *
  omega

/-- Witness for `bfs_fuel_sufficient` on the 1×2 grid. -/
theorem bfs_fuel_sufficient_witness :
    isInBounds g12 (0 : Int) 0 = true ∧
      bfsLoop g12 none CARDINAL (0, 0) (0, 1)
        (rowCount g12 * colCount g12 + 1) [(0, 0)] [(0, 0)] [] ≠ none :=
  ⟨by rfl, bfs_fuel_sufficient g12 (0, 0) (0, 1) CARDINAL none (by rfl)⟩

/-- C4: for in-bounds start and end, `bfs` returns the empty array exactly
when no path exists (the queue exhausts without dequeuing the end); in
particular an always-false predicate with end ≠ start yields `[]`. -/
theorem bfs_empty_iff_unreachable {α : Type} (g : Grid α) (s e : Coord)
    (dirs : List Coord) (valid : Option (Coord → Coord → Grid α → Bool))
    (h1 : isInBounds g s.1 s.2 = true) (h2 : isInBounds g e.1 e.2 = true) :
    (bfs g s e dirs valid = .ok [] ↔ ¬ Reachable g dirs valid s e)
    ∧ (valid = some (fun _ _ _ => false) → e ≠ s →
        bfs g s e dirs valid = .ok []) := by
  have hbfseq : bfs g s e dirs valid =
      .ok ((bfsLoop g valid dirs s e (rowCount g * colCount g + 1)
        [s] [s] []).getD []) := by
    rw [bfs, if_neg (by rw [h1, h2]; simp)]
  have hmain : bfs g s e dirs valid = .ok [] ↔
      ¬ Reachable g dirs valid s e := by
    constructor
    · intro hok
      cases hbl : bfsLoop g valid dirs s e (rowCount g * colCount g + 1)
          [s] [s] [] with
      | none => exact absurd hbl (bfs_fuel_sufficient g s e dirs valid h1)
      | some r =>
        rw [hbfseq, hbl] at hok
        simp only [Option.getD_some, Except.ok.injEq] at hok
        subst hok
        exact bfsLoop_exhaust _ _ _ _ (fun _ => 0)
          (bfsInv_initial g dirs valid s e h1) hbl
    · intro hunreach
      cases hbl : bfsLoop g valid dirs s e (rowCount g * colCount g + 1)
          [s] [s] [] with
      | none => exact absurd hbl (bfs_fuel_sufficient g s e dirs valid h1)
      | some r =>
        cases r with
        | nil =>
          rw [hbfseq, hbl]
          rfl
        | cons x xs =>
          have hfound := bfsLoop_found _ _ _ _ (fun _ => 0)
            (bfsInv_initial g dirs valid s e h1) (x :: xs) hbl
            (List.cons_ne_nil x xs)
          exact absurd ⟨_, hfound.2.2.2.1⟩ hunreach
  refine ⟨hmain, ?_⟩
  intro hv hes
  apply hmain.mpr
  rintro ⟨n, hn⟩
  cases n with
  | zero => exact hes hn
  | succ m =>
    rw [ReachN] at hn
    obtain ⟨u, _, hstep⟩ := hn
    have hvo := hstep.2.2
    rw [hv] at hvo
    simp [validOk] at hvo

/-- Witness for `bfs_empty_iff_unreachable` on the 1×2 grid with the
always-false predicate. -/
theorem bfs_empty_iff_unreachable_witness :
    (isInBounds g12 (0 : Int) 0 = true ∧ isInBounds g12 (0 : Int) 1 = true) ∧
      ((bfs g12 (0, 0) (0, 1) CARDINAL
          (some (fun _ _ _ => false)) = .ok [] ↔
        ¬ Reachable g12 CARDINAL (some (fun _ _ _ => false)) (0, 0) (0, 1))
      ∧ ((some (fun _ _ _ => false) :
            Option (Coord → Coord → Grid Nat → Bool)) =
            some (fun _ _ _ => false) → ((0, 1) : Coord) ≠ (0, 0) →
          bfs g12 (0, 0) (0, 1) CARDINAL
            (some (fun _ _ _ => false)) = .ok [])) :=
  ⟨⟨by rfl, by rfl⟩,
    bfs_empty_iff_unreachable g12 (0, 0) (0, 1) CARDINAL
      (some (fun _ _ _ => false)) (by rfl) (by rfl)⟩

/-! ## Dijkstra: scan and relaxation lemmas -/

theorem scanMin_go (dist : List (Coord × Cost)) :
    ∀ (uv : List Coord) (acc : Cost × Option Coord),
      (acc.2 = none → acc.1 = ⊤) →
      (∀ c, acc.2 = some c →
        acc.1 = (amapGet dist c).getD ⊤ ∧ acc.1 ≠ ⊤) →
      ((scanMin dist uv acc).1 ≤ acc.1 ∧
        (∀ x ∈ uv, (scanMin dist uv acc).1 ≤ (amapGet dist x).getD ⊤) ∧
        ((scanMin dist uv acc).2 = none →
          (scanMin dist uv acc).1 = ⊤ ∧ acc.2 = none) ∧
        (∀ c, (scanMin dist uv acc).2 = some c →
          (scanMin dist uv acc).1 = (amapGet dist c).getD ⊤ ∧
          (scanMin dist uv acc).1 ≠ ⊤ ∧ (c ∈ uv ∨ acc.2 = some c))) := by
  intro uv
  induction uv with
  | nil =>
    intro acc h1 h2
    rw [scanMin]
    exact ⟨le_rfl, by simp, fun h => ⟨h1 h, h⟩,
      fun c hc => ⟨(h2 c hc).1, (h2 c hc).2, Or.inr hc⟩⟩
  | cons pos rest ih =>
    intro acc h1 h2
    simp only [scanMin]
    by_cases hlt : (amapGet dist pos).getD ⊤ < acc.1
    · rw [if_pos hlt]
      have hne : (amapGet dist pos).getD ⊤ ≠ ⊤ := ne_top_of_lt hlt
      have hacc := ih ((amapGet dist pos).getD ⊤, some pos) (by simp)
        (fun c hc => by
          simp only [Option.some.injEq] at hc
          subst hc
          exact ⟨rfl, hne⟩)
      refine ⟨le_trans hacc.1 (le_of_lt hlt), ?_, ?_, ?_⟩
      · intro x hx
        rcases List.mem_cons.mp hx with h | h
        · subst h
          exact hacc.1
        · exact hacc.2.1 x h
      · intro hnone
        obtain ⟨ha, hb⟩ := hacc.2.2.1 hnone
        exact absurd hb (by simp)
      · intro c hc
        obtain ⟨ha, hb, hcmem⟩ := hacc.2.2.2 c hc
        refine ⟨ha, hb, Or.inl ?_⟩
        rcases hcmem with h | h
        · exact List.mem_cons_of_mem pos h
        · simp only [Option.some.injEq] at h
          subst h
          exact List.mem_cons_self pos rest
    · rw [if_neg hlt]
      have hacc := ih acc h1 h2
      refine ⟨hacc.1, ?_, hacc.2.2.1, ?_⟩
      · intro x hx
        rcases List.mem_cons.mp hx with h | h
        · subst h
          exact le_trans hacc.1 (not_lt.mp hlt)
        · exact hacc.2.1 x h
      · intro c hc
        obtain ⟨ha, hb, hcmem⟩ := hacc.2.2.2 c hc
        exact ⟨ha, hb, hcmem.imp (List.mem_cons_of_mem pos) id⟩

/-- The linear scan returns either no node — then every unvisited distance
is `Infinity` — or the first unvisited node whose (finite) distance is
minimal. -/
theorem scanMin_spec (dist : List (Coord × Cost)) (uv : List Coord) :
    ((scanMin dist uv (⊤, none)).2 = none →
      ∀ x ∈ uv, (amapGet dist x).getD ⊤ = ⊤) ∧
    (∀ c, (scanMin dist uv (⊤, none)).2 = some c →
      c ∈ uv ∧ (scanMin dist uv (⊤, none)).1 = (amapGet dist c).getD ⊤ ∧
      (scanMin dist uv (⊤, none)).1 ≠ ⊤ ∧
      ∀ x ∈ uv, (scanMin dist uv (⊤, none)).1 ≤ (amapGet dist x).getD ⊤) := by
  have hgo := scanMin_go dist uv (⊤, none) (fun _ => rfl) (by simp)
  constructor
  · intro hnone x hx
    have h1 := hgo.2.1 x hx
    rw [(hgo.2.2.1 hnone).1] at h1
    exact top_le_iff.mp h1
  · intro c hc
    obtain ⟨ha, hb, hcm⟩ := hgo.2.2.2 c hc
    refine ⟨?_, ha, hb, hgo.2.1⟩
    rcases hcm with h | h
    · exact h
    · exact absurd h (by simp)

/-- One relaxation pass over the directions, under unit edge costs and with
the current node outside the unvisited set (it was deleted first): entries
outside the unvisited set are untouched, unvisited distances never increase,
any change sets the distance to `current + 1`, and afterwards every
unvisited in-bounds direction-neighbor of the current node is at most
`current + 1`. -/
theorem dijkstraRelax_spec {α : Type} (g : Grid α)
    (getCost : Coord → Coord → Grid α → Cost)
    (hunit : ∀ u v : Coord, getCost u v g = 1) :
    ∀ (ds uv : List Coord) (cur : Coord)
      (dp : List (Coord × Cost) × List (Coord × Coord)), cur ∉ uv →
      ((∀ v : Coord, v ∉ uv →
          amapGet (dijkstraRelax g getCost ds uv cur dp).1 v =
            amapGet dp.1 v) ∧
        (∀ v ∈ uv,
          (amapGet (dijkstraRelax g getCost ds uv cur dp).1 v).getD ⊤ ≤
            (amapGet dp.1 v).getD ⊤) ∧
        (∀ v ∈ uv,
          (amapGet (dijkstraRelax g getCost ds uv cur dp).1 v).getD ⊤ =
              (amapGet dp.1 v).getD ⊤ ∨
            ((∃ d ∈ ds, v = (cur.1 + d.1, cur.2 + d.2)) ∧
              isInBounds g v.1 v.2 = true ∧
              (amapGet (dijkstraRelax g getCost ds uv cur dp).1 v).getD ⊤ =
                (amapGet dp.1 cur).getD ⊤ + 1)) ∧
        (∀ v ∈ uv, (∃ d ∈ ds, v = (cur.1 + d.1, cur.2 + d.2)) →
          isInBounds g v.1 v.2 = true →
          (amapGet (dijkstraRelax g getCost ds uv cur dp).1 v).getD ⊤ ≤
            (amapGet dp.1 cur).getD ⊤ + 1)) := by
  intro ds
  induction ds with
  | nil =>
    intro uv cur dp hcur
    rw [dijkstraRelax]
    refine ⟨fun v _ => rfl, fun v _ => le_rfl, fun v _ => Or.inl rfl, ?_⟩
    intro v _ hd
    simp at hd
  | cons d ds ih =>
    intro uv cur dp hcur
    simp only [dijkstraRelax]
    set w : Coord := (cur.1 + d.1, cur.2 + d.2) with hw
    by_cases hib : isInBounds g (cur.1 + d.1) (cur.2 + d.2) = true
    · by_cases hwuv : w ∈ uv
      · rw [if_pos hib, if_pos hwuv, hunit cur w]
        by_cases himp : (amapGet dp.1 cur).getD ⊤ + 1 <
            (amapGet dp.1 w).getD ⊤
        · rw [if_pos himp]
          have hcw : ¬ cur = w := fun h => hcur (h ▸ hwuv)
          have hget : ∀ x : Coord,
              amapGet (amapSet dp.1 w ((amapGet dp.1 cur).getD ⊤ + 1)) x =
                if w = x then some ((amapGet dp.1 cur).getD ⊤ + 1)
                else amapGet dp.1 x := fun x => amapGet_amapSet dp.1 w x _
          have hgetcur :
              amapGet (amapSet dp.1 w ((amapGet dp.1 cur).getD ⊤ + 1)) cur =
                amapGet dp.1 cur := by
            rw [hget cur, if_neg (fun h => hcw h.symm)]
          obtain ⟨ihr1, ihr3, ihr2, ihr4⟩ := ih uv cur
            (amapSet dp.1 w ((amapGet dp.1 cur).getD ⊤ + 1),
              amapSet dp.2 w cur) hcur
          dsimp only at ihr1 ihr3 ihr2 ihr4
          refine ⟨?_, ?_, ?_, ?_⟩
          · intro v hv
            rw [ihr1 v hv, hget v, if_neg (fun h : w = v => hv (h ▸ hwuv))]
          · intro v hv
            refine le_trans (ihr3 v hv) ?_
            rw [hget v]
            by_cases hwv : w = v
            · rw [if_pos hwv, Option.getD_some, ← hwv]
              exact le_of_lt himp
            · rw [if_neg hwv]
          · intro v hv
            rcases ihr2 v hv with h | ⟨hd2, hb2, he2⟩
            · rw [hget v] at h
              by_cases hwv : w = v
              · rw [if_pos hwv, Option.getD_some] at h
                have hvw : v = (cur.1 + d.1, cur.2 + d.2) := by
                  rw [← hwv, hw]
                refine Or.inr ⟨⟨d, List.mem_cons_self d ds, hvw⟩,
                  by rw [hvw]; exact hib, h⟩
              · rw [if_neg hwv] at h
                exact Or.inl h
            · rw [hgetcur] at he2
              exact Or.inr ⟨⟨hd2.choose, List.mem_cons_of_mem d
                hd2.choose_spec.1, hd2.choose_spec.2⟩, hb2, he2⟩
          · intro v hv hd2 hb2
            obtain ⟨d2, hd2m, hd2e⟩ := hd2
            rcases List.mem_cons.mp hd2m with rfl | hd2m
            · have hvw : v = w := hd2e
              refine le_trans (ihr3 v hv) ?_
              rw [hget v, if_pos hvw.symm, Option.getD_some]
            · refine le_trans (ihr4 v hv ⟨d2, hd2m, hd2e⟩ hb2) ?_
              rw [hgetcur]
        · rw [if_neg himp]
          obtain ⟨ihr1, ihr3, ihr2, ihr4⟩ := ih uv cur dp hcur
          refine ⟨ihr1, ihr3, ?_, ?_⟩
          · intro v hv
            rcases ihr2 v hv with h | ⟨hd2, hb2, he2⟩
            · exact Or.inl h
            · exact Or.inr ⟨⟨hd2.choose, List.mem_cons_of_mem d
                hd2.choose_spec.1, hd2.choose_spec.2⟩, hb2, he2⟩
          · intro v hv hd2 hb2
            obtain ⟨d2, hd2m, hd2e⟩ := hd2
            rcases List.mem_cons.mp hd2m with rfl | hd2m
            · have hvw : v = w := hd2e
              subst hvw
              exact le_trans (ihr3 w hv) (not_lt.mp himp)
            · exact ihr4 v hv ⟨d2, hd2m, hd2e⟩ hb2
      · rw [if_pos hib, if_neg hwuv]
        obtain ⟨ihr1, ihr3, ihr2, ihr4⟩ := ih uv cur dp hcur
        refine ⟨ihr1, ihr3, ?_, ?_⟩
        · intro v hv
          rcases ihr2 v hv with h | ⟨hd2, hb2, he2⟩
          · exact Or.inl h
          · exact Or.inr ⟨⟨hd2.choose, List.mem_cons_of_mem d
              hd2.choose_spec.1, hd2.choose_spec.2⟩, hb2, he2⟩
        · intro v hv hd2 hb2
          obtain ⟨d2, hd2m, hd2e⟩ := hd2
          rcases List.mem_cons.mp hd2m with rfl | hd2m
          · have hvw : v = w := hd2e
            subst hvw
            exact absurd hv hwuv
          · exact ihr4 v hv ⟨d2, hd2m, hd2e⟩ hb2
    · rw [if_neg hib]
      obtain ⟨ihr1, ihr3, ihr2, ihr4⟩ := ih uv cur dp hcur
      refine ⟨ihr1, ihr3, ?_, ?_⟩
      · intro v hv
        rcases ihr2 v hv with h | ⟨hd2, hb2, he2⟩
        · exact Or.inl h
        · exact Or.inr ⟨⟨hd2.choose, List.mem_cons_of_mem d
            hd2.choose_spec.1, hd2.choose_spec.2⟩, hb2, he2⟩
      · intro v hv hd2 hb2
        obtain ⟨d2, hd2m, hd2e⟩ := hd2
        rcases List.mem_cons.mp hd2m with rfl | hd2m
        · have hvw : v = w := hd2e
          subst hvw
          exact absurd hb2 hib
        · exact ihr4 v hv ⟨d2, hd2m, hd2e⟩ hb2

/-! ## Dijkstra: invariant lemmas -/

theorem setDelete_mem (uv : List Coord) (cur x : Coord) :
    x ∈ setDelete uv cur ↔ x ∈ uv ∧ x ≠ cur := by
  simp [setDelete, List.mem_filter]

theorem setDelete_length (uv : List Coord) (cur : Coord) (hnd : uv.Nodup)
    (hcur : cur ∈ uv) : (setDelete uv cur).length + 1 = uv.length := by
  induction uv with
  | nil => cases hcur
  | cons x rest ih =>
    rw [List.nodup_cons] at hnd
    by_cases hx : x = cur
    · subst hx
      have h1 : setDelete (x :: rest) x = rest := by
        rw [setDelete, List.filter_cons, if_neg (by simp)]
        exact List.filter_eq_self.mpr
          (fun a ha => by simp; exact fun hax => hnd.1 (hax ▸ ha))
      rw [h1, List.length_cons]
    · have hcur2 : cur ∈ rest := by
        rcases List.mem_cons.mp hcur with h | h
        · exact absurd h.symm hx
        · exact h
      have h1 : setDelete (x :: rest) cur = x :: setDelete rest cur := by
        rw [setDelete, List.filter_cons, if_pos (by simp [hx])]
        rfl
      rw [h1, List.length_cons, List.length_cons, ih hnd.2 hcur2]

/-- In any invariant state, if a coordinate reachable in `m` steps is still
unvisited, some unvisited coordinate carries distance at most `m`: walk the
path until it first leaves the settled region. -/
theorem dijInv_uvDistBound {α : Type} {g : Grid α} {dirs : List Coord}
    {s e : Coord} {uv : List Coord} {dist : List (Coord × Cost)}
    (inv : DijInv g dirs s e uv dist) :
    ∀ (m : Nat) (v : Coord), ReachN g dirs none s m v → v ∈ uv →
      ∃ x ∈ uv, (amapGet dist x).getD ⊤ ≤ ((m : Int) : Cost) := by
  intro m
  induction m with
  | zero =>
    intro v hv hvuv
    rw [ReachN] at hv
    subst hv
    refine ⟨v, hvuv, ?_⟩
    rw [inv.startD hvuv]
    exact_mod_cast le_refl (0 : Int)
  | succ m ihm =>
    intro v hv hvuv
    rw [ReachN] at hv
    obtain ⟨u, hu, hstep⟩ := hv
    by_cases huv : u ∈ uv
    · obtain ⟨x, hx1, hx2⟩ := ihm u hu huv
      refine ⟨x, hx1, le_trans hx2 ?_⟩
      have h1 : ((m : Int)) ≤ ((m : Int)) + 1 := by omega
      exact_mod_cast h1
    · have hInB : isInBounds g u.1 u.2 = true := by
        rcases reachN_inB g dirs none s m u hu with h | h
        · subst h
          exact inv.sInB
        · exact h
      obtain ⟨k, hk1, hk2, hk3⟩ := inv.settledExact u hInB huv
      have hkm : k ≤ m := hk3 m hu
      have hfr := inv.frontierUB v hvuv u hInB huv hstep
      refine ⟨v, hvuv, le_trans hfr ?_⟩
      rw [hk1]
      have h1 : ((k : Int)) + 1 ≤ ((m : Int)) + 1 := by omega
      exact_mod_cast h1

/-- The coordinate the linear scan selects carries the exact shortest
distance. -/
theorem dijInv_settle {α : Type} {g : Grid α} {dirs : List Coord}
    {s e : Coord} {uv : List Coord} {dist : List (Coord × Cost)}
    (inv : DijInv g dirs s e uv dist) (cur : Coord) (hcur : cur ∈ uv)
    (hne : (amapGet dist cur).getD ⊤ ≠ ⊤)
    (hmin : ∀ x ∈ uv,
      (amapGet dist cur).getD ⊤ ≤ (amapGet dist x).getD ⊤) :
    ∃ k : Nat, (amapGet dist cur).getD ⊤ = ((k : Int) : Cost) ∧
      ReachN g dirs none s k cur ∧
      ∀ m, ReachN g dirs none s m cur → k ≤ m := by
  obtain ⟨k, hk1, hk2⟩ := inv.lowerBound cur hne
  refine ⟨k, hk1, hk2, ?_⟩
  intro m hm
  obtain ⟨x, hx1, hx2⟩ := dijInv_uvDistBound inv m cur hm hcur
  have h1 := le_trans (hmin x hx1) hx2
  rw [hk1] at h1
  exact_mod_cast h1

/-- Settling the scanned minimum and relaxing its neighbors preserves the
Dijkstra invariant. -/
theorem dijInv_preserve {α : Type} {g : Grid α} {dirs : List Coord}
    {s e : Coord} {uv : List Coord} {dist : List (Coord × Cost)}
    {prev : List (Coord × Coord)}
    (getCost : Coord → Coord → Grid α → Cost)
    (hunit : ∀ u v : Coord, getCost u v g = 1)
    (inv : DijInv g dirs s e uv dist) (cur : Coord) (hcur : cur ∈ uv)
    (hne : (amapGet dist cur).getD ⊤ ≠ ⊤)
    (hmin : ∀ x ∈ uv,
      (amapGet dist cur).getD ⊤ ≤ (amapGet dist x).getD ⊤)
    (hcne : ¬ cur = e) :
    DijInv g dirs s e (setDelete uv cur)
      (dijkstraRelax g getCost dirs (setDelete uv cur) cur (dist, prev)).1 := by
  have hcur2 : cur ∉ setDelete uv cur :=
    fun h => ((setDelete_mem uv cur cur).mp h).2 rfl
  obtain ⟨R1, R3, R2, R4⟩ :=
    dijkstraRelax_spec g getCost hunit dirs (setDelete uv cur) cur
      (dist, prev) hcur2
  dsimp only at R1 R3 R2 R4
  obtain ⟨k, hk1, hk2, hk3⟩ := dijInv_settle inv cur hcur hne hmin
  have hDcur :
      (amapGet (dijkstraRelax g getCost dirs (setDelete uv cur) cur
        (dist, prev)).1 cur).getD ⊤ = ((k : Int) : Cost) := by
    rw [R1 cur hcur2, hk1]
  refine ⟨inv.uvNodup.filter _, ?_, inv.sInB, ?_, ?_, ?_, ?_, ?_⟩
  · intro v hv
    exact inv.uvBounds v ((setDelete_mem uv cur v).mp hv).1
  · exact (setDelete_mem uv cur e).mpr ⟨inv.endUv, fun h => hcne h.symm⟩
  · intro hs2
    have hs3 := (setDelete_mem uv cur s).mp hs2
    have hD0 : (amapGet dist s).getD ⊤ = 0 := inv.startD hs3.1
    rcases R2 s hs2 with h | ⟨_, _, he2⟩
    · rw [h, hD0]
    · exfalso
      have hle := R3 s hs2
      rw [he2, hD0, hk1] at hle
      have : ((k : Int)) + 1 ≤ 0 := by exact_mod_cast hle
      omega
  · intro v hInB hv2
    by_cases hvc : v = cur
    · subst hvc
      exact ⟨k, hDcur, hk2, hk3⟩
    · have hv3 : v ∉ uv :=
        fun h => hv2 ((setDelete_mem uv cur v).mpr ⟨h, hvc⟩)
      obtain ⟨k2, hh1, hh2, hh3⟩ := inv.settledExact v hInB hv3
      refine ⟨k2, ?_, hh2, hh3⟩
      rw [R1 v hv2, hh1]
  · intro v hfin
    by_cases hv2 : v ∈ setDelete uv cur
    · rcases R2 v hv2 with h | ⟨hd2, hb2, he2⟩
      · rw [h] at hfin ⊢
        exact inv.lowerBound v hfin
      · refine ⟨k + 1, ?_, ?_⟩
        · rw [he2, hk1]
          push_cast
          ring_nf
        · rw [ReachN]
          obtain ⟨d2, hd2m, hd2e⟩ := hd2
          exact ⟨cur, hk2, ⟨d2, hd2m, hd2e⟩, hb2, rfl⟩
    · rw [R1 v hv2] at hfin ⊢
      exact inv.lowerBound v hfin
  · intro v hv2 u hInB hu2 hstep
    by_cases huc : u = cur
    · subst huc
      have hb2 : isInBounds g v.1 v.2 = true := hstep.2.1
      have hd2 : ∃ d ∈ dirs, v = (u.1 + d.1, u.2 + d.2) := hstep.1
      have h4 := R4 v hv2 hd2 hb2
      rw [R1 u hu2]
      exact h4
    · have hu3 : u ∉ uv :=
        fun h => hu2 ((setDelete_mem uv cur u).mpr ⟨h, huc⟩)
      have hold := inv.frontierUB v ((setDelete_mem uv cur v).mp hv2).1 u
        hInB hu3 hstep
      rw [R1 u hu2]
      exact le_trans (R3 v hv2) hold

/-! ## Dijkstra: initialization and main loop -/

theorem mem_rowCells (n : Nat) (r0 : Int) (x : Coord) :
    x ∈ (List.range n).map (fun c => (r0, Int.ofNat c)) ↔
      x.1 = r0 ∧ 0 ≤ x.2 ∧ x.2 < (n : Int) := by
  rw [List.mem_map]
  constructor
  · rintro ⟨c, hc, rfl⟩
    rw [List.mem_range] at hc
    refine ⟨rfl, by show (0 : Int) ≤ Int.ofNat c; rw [Int.ofNat_eq_natCast]; omega,
      by show Int.ofNat c < ((n : Int)); rw [Int.ofNat_eq_natCast]; omega⟩
  · rintro ⟨h1, h2, h3⟩
    refine ⟨x.2.toNat, ?_, ?_⟩
    · rw [List.mem_range]
      omega
    · rw [Prod.ext_iff]
      refine ⟨h1.symm, ?_⟩
      show Int.ofNat x.2.toNat = x.2
      rw [Int.ofNat_eq_natCast]
      omega

theorem mem_dijkstraCells {α : Type} (g : Grid α) (v : Coord) :
    v ∈ dijkstraCells g ↔ isInBounds g v.1 v.2 = true := by
  rw [dijkstraCells, isInBounds_iff, List.mem_flatMap]
  constructor
  · rintro ⟨r, hr, hm⟩
    rw [List.mem_range] at hr
    rw [mem_rowCells] at hm
    obtain ⟨h1, h2, h3⟩ := hm
    rw [Int.ofNat_eq_natCast] at h1
    refine ⟨?_, ?_, h2, h3⟩ <;> omega
  · rintro ⟨h1, h2, h3, h4⟩
    refine ⟨v.1.toNat, ?_, ?_⟩
    · rw [List.mem_range]
      omega
    · rw [mem_rowCells]
      refine ⟨?_, h3, h4⟩
      show v.1 = Int.ofNat v.1.toNat
      rw [Int.ofNat_eq_natCast]
      omega

theorem foldl_setAdd_mem (l : List Coord) :
    ∀ (acc : List Coord) (x : Coord),
      x ∈ l.foldl setAdd acc ↔ x ∈ acc ∨ x ∈ l := by
  induction l with
  | nil => intro acc x; simp
  | cons p rest ih =>
    intro acc x
    rw [List.foldl_cons, ih]
    rw [setAdd]
    by_cases hp : p ∈ acc
    · rw [if_pos hp]
      constructor
      · rintro (h | h)
        · exact Or.inl h
        · exact Or.inr (List.mem_cons_of_mem p h)
      · rintro (h | h)
        · exact Or.inl h
        · rcases List.mem_cons.mp h with h2 | h2
          · exact Or.inl (h2 ▸ hp)
          · exact Or.inr h2
    · rw [if_neg hp]
      constructor
      · rintro (h | h)
        · rcases List.mem_append.mp h with h2 | h2
          · exact Or.inl h2
          · rw [List.mem_singleton] at h2
            exact Or.inr (h2 ▸ List.mem_cons_self p rest)
        · exact Or.inr (List.mem_cons_of_mem p h)
      · rintro (h | h)
        · exact Or.inl (List.mem_append.mpr (Or.inl h))
        · rcases List.mem_cons.mp h with h2 | h2
          · exact Or.inl (List.mem_append.mpr (Or.inr (by simp [h2])))
          · exact Or.inr h2

theorem foldl_setAdd_nodup (l : List Coord) :
    ∀ (acc : List Coord), acc.Nodup → (l.foldl setAdd acc).Nodup := by
  induction l with
  | nil => intro acc h; exact h
  | cons p rest ih =>
    intro acc h
    rw [List.foldl_cons]
    apply ih
    rw [setAdd]
    by_cases hp : p ∈ acc
    · rw [if_pos hp]
      exact h
    · rw [if_neg hp]
      exact List.Nodup.append h (List.nodup_singleton p)
        (fun x hx hx2 => hp ((List.mem_singleton.mp hx2) ▸ hx))

theorem foldl_setAdd_length (l : List Coord) :
    ∀ (acc : List Coord),
      (l.foldl setAdd acc).length ≤ acc.length + l.length := by
  induction l with
  | nil => intro acc; simp
  | cons p rest ih =>
    intro acc
    rw [List.foldl_cons]
    refine le_trans (ih (setAdd acc p)) ?_
    rw [setAdd]
    by_cases hp : p ∈ acc
    · rw [if_pos hp, List.length_cons]
      omega
    · rw [if_neg hp, List.length_append, List.length_singleton,
        List.length_cons]
      omega

theorem foldl_pair_init (l : List Coord) :
    ∀ (m : List (Coord × Cost)) (u : List Coord),
      l.foldl (fun dp p => (amapSet dp.1 p ⊤, setAdd dp.2 p)) (m, u) =
        (l.foldl (fun m2 p => amapSet m2 p ⊤) m, l.foldl setAdd u) := by
  induction l with
  | nil => intro m u; rfl
  | cons p rest ih =>
    intro m u
    rw [List.foldl_cons, List.foldl_cons, List.foldl_cons]
    exact ih (amapSet m p ⊤) (setAdd u p)

theorem foldl_amapSet_top_get (l : List Coord) :
    ∀ (m : List (Coord × Cost)) (v : Coord),
      amapGet (l.foldl (fun m2 p => amapSet m2 p ⊤) m) v =
        if v ∈ l then some ⊤ else amapGet m v := by
  induction l with
  | nil => intro m v; simp
  | cons p rest ih =>
    intro m v
    rw [List.foldl_cons, ih]
    by_cases hv : v ∈ rest
    · rw [if_pos hv, if_pos (List.mem_cons_of_mem p hv)]
    · rw [if_neg hv, amapGet_amapSet]
      by_cases hpv : p = v
      · rw [if_pos hpv, if_pos (hpv ▸ List.mem_cons_self p rest)]
      · rw [if_neg hpv, if_neg (fun h => by
          rcases List.mem_cons.mp h with h2 | h2
          · exact hpv h2.symm
          · exact hv h2)]

/-- The invariant holds for the initial Dijkstra state: every cell at
`Infinity`, the start at `0`, all cells unvisited. -/
theorem dijInv_initial {α : Type} (g : Grid α) (dirs : List Coord)
    (s e : Coord) (hs : isInBounds g s.1 s.2 = true)
    (he : isInBounds g e.1 e.2 = true) :
    DijInv g dirs s e ((dijkstraCells g).foldl setAdd [])
      (amapSet ((dijkstraCells g).foldl
        (fun m2 p => amapSet m2 p ⊤) ([] : List (Coord × Cost))) s 0) := by
  have hmemuv : ∀ x : Coord, x ∈ (dijkstraCells g).foldl setAdd [] ↔
      isInBounds g x.1 x.2 = true := by
    intro x
    rw [foldl_setAdd_mem, mem_dijkstraCells]
    simp
  have hget : ∀ v : Coord,
      amapGet (amapSet ((dijkstraCells g).foldl
        (fun m2 p => amapSet m2 p ⊤) ([] : List (Coord × Cost))) s 0) v =
        if s = v then some 0
        else if v ∈ dijkstraCells g then some ⊤ else none := by
    intro v
    rw [amapGet_amapSet, foldl_amapSet_top_get]
    by_cases hsv : s = v
    · rw [if_pos hsv, if_pos hsv]
    · rw [if_neg hsv, if_neg hsv]
      by_cases hv : v ∈ dijkstraCells g
      · rw [if_pos hv, if_pos hv]
      · rw [if_neg hv, if_neg hv]
        rfl
  have hgetD : ∀ v : Coord, ¬ s = v →
      (amapGet (amapSet ((dijkstraCells g).foldl
        (fun m2 p => amapSet m2 p ⊤) ([] : List (Coord × Cost))) s 0) v).getD
        ⊤ = ⊤ := by
    intro v hsv
    rw [hget v, if_neg hsv]
    by_cases hv : v ∈ dijkstraCells g
    · rw [if_pos hv]
      rfl
    · rw [if_neg hv]
      rfl
  refine ⟨foldl_setAdd_nodup _ [] List.nodup_nil, ?_, hs, ?_, ?_, ?_, ?_, ?_⟩
  · intro v hv
    exact (hmemuv v).mp hv
  · exact (hmemuv e).mpr he
  · intro _
    rw [hget s, if_pos rfl]
    rfl
  · intro v hInB hv2
    exact absurd ((hmemuv v).mpr hInB) hv2
  · intro v hfin
    by_cases hsv : s = v
    · subst hsv
      refine ⟨0, ?_, ?_⟩
      · rw [hget s, if_pos rfl]
        rfl
      · rw [ReachN]
    · exact absurd (hgetD v hsv) hfin
  · intro v _ u hInB hu2
    exact absurd ((hmemuv u).mpr hInB) hu2

/-- Main loop lemma: from an invariant state with enough fuel, the final
distance recorded for the end is exactly the shortest walk length, whenever
the end is reachable. -/
theorem dijkstraLoop_exact {α : Type} {g : Grid α} {dirs : List Coord}
    {s e : Coord} (getCost : Coord → Coord → Grid α → Cost)
    (hunit : ∀ u v : Coord, getCost u v g = 1) :
    ∀ (fuel : Nat) (uv : List Coord) (dist : List (Coord × Cost))
      (prev : List (Coord × Coord)),
      DijInv g dirs s e uv dist → uv.length < fuel →
      ∀ (k : Nat), ReachN g dirs none s k e →
        (∀ m, ReachN g dirs none s m e → k ≤ m) →
      (amapGet (dijkstraLoop g getCost dirs e fuel uv dist prev).1 e).getD ⊤ =
        ((k : Int) : Cost) := by
  intro fuel
  induction fuel with
  | zero =>
    intro uv dist prev _ hf
    omega
  | succ f ih =>
    intro uv dist prev inv hf k hk hopt
    rw [dijkstraLoop]
    have huvne : uv ≠ [] := List.ne_nil_of_mem inv.endUv
    have hempty : uv.isEmpty = false := by
      cases uv
      · exact absurd rfl huvne
      · rfl
    rw [if_neg (by rw [hempty]; simp)]
    have hspec := scanMin_spec dist uv
    rcases hsc : scanMin dist uv (⊤, none) with ⟨minD, curo⟩
    rw [hsc] at hspec
    cases curo with
    | none =>
      exfalso
      obtain ⟨x, hx1, hx2⟩ := dijInv_uvDistBound inv k e hk inv.endUv
      have hxtop := hspec.1 rfl x hx1
      rw [hxtop] at hx2
      exact absurd hx2 (by simp)
    | some cur =>
      obtain ⟨hcur, hmind, hmtop, hmin⟩ := hspec.2 cur rfl
      show (amapGet (if minD = ⊤ then (dist, prev)
        else if cur = e then (dist, prev)
        else _).1 e).getD ⊤ = _
      rw [if_neg hmtop]
      by_cases hce : cur = e
      · rw [if_pos hce]
        subst hce
        obtain ⟨k2, hk21, hk22, hk23⟩ := dijInv_settle inv cur hcur
          (by rw [← hmind]; exact hmtop)
          (fun x hx => by rw [← hmind]; exact hmin x hx)
        have hkk : k2 = k := le_antisymm (hk23 k hk) (hopt k2 hk22)
        show (amapGet dist cur).getD ⊤ = _
        rw [hk21, hkk]
      · rw [if_neg hce]
        have hinv2 := @dijInv_preserve α g dirs s e uv dist prev getCost
          hunit inv cur hcur (by rw [← hmind]; exact hmtop)
          (fun x hx => by rw [← hmind]; exact hmin x hx) hce
        have hlen := setDelete_length uv cur inv.uvNodup hcur
        exact ih (setDelete uv cur) _ _ hinv2 (by omega) k hk hopt

/-- C1 (amended to reachable ends): whenever `bfs` — same grid, start, end
and direction set, no move predicate — returns a nonempty path, `dijkstra`
run with any cost function returning `1` for every edge records exactly
`path length − 1` as the end key's distance.  (For unreachable ends the
agreement fails: see `dijkstra_bfs_agree_cex`.) -/
theorem dijkstra_bfs_unit_cost_agree {α : Type} (g : Grid α) (s e : Coord)
    (dirs : List Coord) (getCost : Coord → Coord → Grid α → Cost)
    (hunit : ∀ u v : Coord, getCost u v g = 1) (P : List Coord)
    (hbfs : bfs g s e dirs none = .ok P) (hne : P ≠ []) :
    (dijkstra g s e dirs getCost).map (fun r => amapGet r.distances e) =
      .ok (some (((P.length : Int) - 1 : Int) : Cost)) := by
  obtain ⟨h1, h2, h3⟩ := bfs_ok_eq g s e dirs none P hbfs
  have hbl : bfsLoop g none dirs s e (rowCount g * colCount g + 1)
      [s] [s] [] = some P := by
    cases hbl2 : bfsLoop g none dirs s e (rowCount g * colCount g + 1)
        [s] [s] [] with
    | none =>
      rw [hbl2] at h3
      simp only [Option.getD_none] at h3
      exact absurd h3.symm hne
    | some r =>
      rw [hbl2] at h3
      simp only [Option.getD_some] at h3
      rw [h3]
  have hfound := bfsLoop_found _ _ _ _ (fun _ => 0)
    (bfsInv_initial g dirs none s e h1) P hbl hne
  have hk : ReachN g dirs none s (P.length - 1) e := hfound.2.2.2.1
  have hopt : ∀ m, ReachN g dirs none s m e → P.length - 1 ≤ m :=
    hfound.2.2.2.2
  have hinv := dijInv_initial g dirs s e h1 h2
  have hlen : ((dijkstraCells g).foldl setAdd []).length <
      (dijkstraCells g).length + 1 := by
    have hl2 := foldl_setAdd_length (dijkstraCells g) []
    simp only [List.length_nil] at hl2
    omega
  have hexact := dijkstraLoop_exact getCost hunit
    ((dijkstraCells g).length + 1) ((dijkstraCells g).foldl setAdd [])
    (amapSet ((dijkstraCells g).foldl
      (fun m2 p => amapSet m2 p ⊤) ([] : List (Coord × Cost))) s 0)
    [] hinv hlen (P.length - 1) hk hopt
  rw [dijkstra, if_neg (by rw [h1, h2]; simp)]
  simp only [Except.map, foldl_pair_init, Except.ok.injEq]
  cases hget : amapGet (dijkstraLoop g getCost dirs e
      ((dijkstraCells g).length + 1) ((dijkstraCells g).foldl setAdd [])
      (amapSet ((dijkstraCells g).foldl
        (fun m2 p => amapSet m2 p ⊤) ([] : List (Coord × Cost))) s 0)
      []).1 e with
  | none =>
    rw [hget] at hexact
    simp only [Option.getD_none] at hexact
    exact absurd hexact (by simp)
  | some c =>
    rw [hget] at hexact
    simp only [Option.getD_some] at hexact
    have hcast : (((P.length - 1 : Nat) : Int) : Cost) =
        (((P.length : Int) - 1 : Int) : Cost) := by
      have hl : 1 ≤ P.length := List.length_pos.mpr hne
      have hc2 : ((P.length - 1 : Nat) : Int) = (P.length : Int) - 1 := by
        omega
      rw [hc2]
    rw [hexact, hcast]

/-- Witness for `dijkstra_bfs_unit_cost_agree` on the 3×3 grid. -/
theorem dijkstra_bfs_unit_cost_agree_witness :
    ((∀ u v : Coord, unitCost u v grid3 = 1) ∧
      bfs grid3 (0, 0) (2, 2) CARDINAL none =
        .ok [(0, 0), (0, 1), (0, 2), (1, 2), (2, 2)] ∧
      ([(0, 0), (0, 1), (0, 2), (1, 2), (2, 2)] : List Coord) ≠ []) ∧
      (dijkstra grid3 (0, 0) (2, 2) CARDINAL unitCost).map
          (fun r => amapGet r.distances (2, 2)) =
        .ok (some (((([(0, 0), (0, 1), (0, 2), (1, 2), (2, 2)] :
          List Coord).length : Int) - 1 : Int) : Cost)) :=
  ⟨⟨fun _ _ => rfl, by rfl, by decide⟩,
    dijkstra_bfs_unit_cost_agree grid3 (0, 0) (2, 2) CARDINAL unitCost
      (fun _ _ => rfl) [(0, 0), (0, 1), (0, 2), (1, 2), (2, 2)] (by rfl)
      (by decide)⟩

end AoC2024
